import Mathlib

/-!
A shallow embedding of `utelnetd.c`, the small telnet server.

The C program is embedded as pure Lean functions.  Library and system calls
whose result depends on the machine (posix_openpt, access, socket, ...) are
read from an explicit environment record; every call the program makes is
recorded in a trace, and every store into a caller-visible buffer is recorded
as an (offset, value) pair, so that statements about what was called, closed
or written are statements about these records.

The source ends `main` after the listening socket is set up.  The operations
on the circular buffers of `struct tsession` and the telnet codec are not in
it; they are modelled from the design document, and each such definition says
so in its comment.
-/

namespace Utelnetd

/-! ## C strings and byte memory -/

/-- A C string, given by the characters stored from its first byte on.  The
string it denotes ends before the first NUL character (or at the end of the
list when it holds none). -/
abbrev CString := List Char

/-- The terminating character of C strings. -/
def NUL : Char := Char.ofNat 0

/-- The characters of a C string before its terminator. -/
def cstr (s : CString) : CString := s.takeWhile (fun c => c != NUL)

/-- C `strlen`. -/
def strlen (s : CString) : Nat := (cstr s).length

/-- A character buffer addressed by offset from its first byte. -/
abbrev Mem := Nat → Char

/-- One store of a character at an offset. -/
def Mem.store (m : Mem) (w : Nat × Char) : Mem :=
  fun j => if j = w.1 then w.2 else m j

/-- The buffer after a sequence of stores, performed in order. -/
def Mem.apply (m : Mem) (ws : List (Nat × Char)) : Mem :=
  ws.foldl Mem.store m

/-- The buffer holds the NUL-terminated string `s` at offset 0. -/
def Mem.holds (m : Mem) (s : CString) : Prop :=
  (∀ i, i < s.length → m i = s.getD i NUL) ∧ m s.length = NUL

instance (m : Mem) (s : CString) : Decidable (m.holds s) :=
  inferInstanceAs (Decidable (_ ∧ _))

/-- The stores of C `strncpy(dst, src, n)` from offset `i` on: characters of
`src` are copied until `n` stores were made or the terminator was copied, and
the remainder of the `n` positions is filled with NUL. -/
def strncpyFrom : Nat → CString → Nat → List (Nat × Char)
  | _, _, 0 => []
  | i, [], n + 1 => (i, NUL) :: strncpyFrom (i + 1) [] n
  | i, c :: cs, n + 1 =>
    if c = NUL then (i, NUL) :: strncpyFrom (i + 1) [] n
    else (i, c) :: strncpyFrom (i + 1) cs n

/-- C `strncpy(dst, src, n)` as the list of stores into `dst`. -/
def strncpy (src : CString) (n : Nat) : List (Nat × Char) :=
  strncpyFrom 0 src n

/-- The stores of C `strcpy(dst, src)` from offset `i` on: every character up
to and including the terminator is copied, with no bound. -/
def strcpyFrom : Nat → CString → List (Nat × Char)
  | i, [] => [(i, NUL)]
  | i, c :: cs =>
    if c = NUL then [(i, NUL)] else (i, c) :: strcpyFrom (i + 1) cs

/-- C `strcpy(dst, src)` as the list of stores into `dst`. -/
def strcpy (src : CString) : List (Nat × Char) :=
  strcpyFrom 0 src

/-! ## getpty -/

/-- The constant of `#define MAX_PTY_NAME_LEN 64`. -/
def MAX_PTY_NAME_LEN : Nat := 64

/-- What the pseudo-terminal library calls return in one run of `getpty`. -/
structure PtyEnv where
  /-- result of `posix_openpt(O_RDWR | O_NOCTTY)` -/
  posix_openpt : Int
  /-- result of `grantpt(p)` -/
  grantpt : Int
  /-- result of `unlockpt(p)` -/
  unlockpt : Int
  /-- result of `ptsname(p)`; `none` is the NULL pointer -/
  ptsname : Option CString

/-- The library calls `getpty` makes. -/
inductive PtyCall where
  | posix_openpt
  | grantpt (fd : Int)
  | unlockpt (fd : Int)
  | ptsname (fd : Int)
  | close (fd : Int)
  deriving DecidableEq, Repr

/-- The observable effect of one call of `getpty(line)`. -/
structure PtyResult where
  /-- the returned `int` -/
  ret : Int
  /-- the library calls made, in order -/
  calls : List PtyCall
  /-- the stores into the caller's buffer `line`, in order -/
  stores : List (Nat × Char)

/-- The function `static int getpty(char *line)`. -/
def getpty (env : PtyEnv) : PtyResult :=
  let p := env.posix_openpt
  if p < 0 then
    ⟨-1, [.posix_openpt], []⟩
  else if env.grantpt < 0 then
    ⟨-1, [.posix_openpt, .grantpt p, .close p], []⟩
  else if env.unlockpt < 0 then
    ⟨-1, [.posix_openpt, .grantpt p, .unlockpt p, .close p], []⟩
  else
    match env.ptsname with
    | none =>
      ⟨-1, [.posix_openpt, .grantpt p, .unlockpt p, .ptsname p, .close p], []⟩
    | some pty_name =>
      ⟨p, [.posix_openpt, .grantpt p, .unlockpt p, .ptsname p],
        strncpy pty_name (MAX_PTY_NAME_LEN - 1) ++ [(MAX_PTY_NAME_LEN - 1, NUL)]⟩

/-- The buffer `line` after `getpty(line)` returned. -/
def lineAfter (env : PtyEnv) (line : Mem) : Mem :=
  line.apply (getpty env).stores

/-! ## Option parsing: getopt and atoi -/

/-- The option string handed to `getopt` in `main`. -/
def optstring : CString := "i:p:l:hdn".toList

/-- What an option string says about a character: `none` when it is no option
character, `some true` when the option takes an argument (a colon follows),
`some false` when it takes none. -/
def lookupOpt : CString → Char → Option Bool
  | [], _ => none
  | o :: os, c =>
    if o = c then some (os.head? == some ':') else lookupOpt os c

/-- The scanning position of `getopt`: the elements of argv from `optind` on,
and the unread rest of the option cluster being scanned (`nextchar`). -/
structure GetoptState where
  rest : List CString
  nextchar : CString
  deriving DecidableEq, Repr

/-- One return of `getopt`: -1, or an option character (the character `?` on
an error) together with the value left in `optarg`. -/
inductive GetoptRet where
  | done
  | opt (c : Char) (optarg : Option CString)
  deriving DecidableEq, Repr

/-- The search of `getopt` for the next argv element that holds options.  The
element `--` ends the options.  An element that is no option (it does not
start with a dash, or is the lone dash) is skipped, as the argv permutation of
GNU getopt does; with POSIXLY_CORRECT set it ends the options instead.  The
result is the option cluster of the element found (without its dash) and the
elements after it. -/
def nextOptionElement (posixly_correct : Bool) : List CString → Option (CString × List CString)
  | [] => none
  | a :: rest =>
    if a = ['-', '-'] then none
    else
      match a with
      | '-' :: c :: cs => some (c :: cs, rest)
      | _ => if posixly_correct then none else nextOptionElement posixly_correct rest

/-- The scan of one option character `c` of a cluster, `cs` being the rest of
the cluster and `rest` the argv elements after it. -/
def getoptChar (opts : CString) (c : Char) (cs : CString) (rest : List CString) :
    GetoptRet × GetoptState :=
  if c = ':' ∨ c = ';' then (.opt '?' none, ⟨rest, cs⟩)
  else
    match lookupOpt opts c with
    | none => (.opt '?' none, ⟨rest, cs⟩)
    | some false => (.opt c none, ⟨rest, cs⟩)
    | some true =>
      match cs with
      | _ :: _ => (.opt c (some cs), ⟨rest, []⟩)
      | [] =>
        match rest with
        | [] => (.opt '?' none, ⟨[], []⟩)
        | a :: rest2 => (.opt c (some a), ⟨rest2, []⟩)

/-- One call of `getopt(argc, argv, opts)`. -/
def getopt (posixly_correct : Bool) (opts : CString) (st : GetoptState) :
    GetoptRet × GetoptState :=
  match st.nextchar with
  | c :: cs => getoptChar opts c cs st.rest
  | [] =>
    match nextOptionElement posixly_correct st.rest with
    | none => (.done, ⟨[], []⟩)
    | some (c :: cs, rest) => getoptChar opts c cs rest
    | some ([], rest) => (.done, ⟨rest, []⟩)

/-- C `isspace` in the C locale. -/
def isspace (c : Char) : Bool :=
  c = ' ' || (9 ≤ c.toNat && c.toNat ≤ 13)

/-- C `isdigit`. -/
def isdigit (c : Char) : Bool :=
  48 ≤ c.toNat && c.toNat ≤ 57

/-- The value of the longest prefix of decimal digits, continuing from `acc`. -/
def digitsValue : Nat → CString → Nat
  | acc, [] => acc
  | acc, c :: cs =>
    if isdigit c then digitsValue (10 * acc + (c.toNat - 48)) cs else acc

/-- The range of C `long` (64 bits), to which `strtol` saturates. -/
def clampLong (x : Int) : Int :=
  if x < -(2 ^ 63) then -(2 ^ 63) else if 2 ^ 63 - 1 < x then 2 ^ 63 - 1 else x

/-- Conversion of an integer to C `int` (32 bits, two's complement). -/
def toInt32 (x : Int) : Int :=
  (x + 2 ^ 31) % 2 ^ 32 - 2 ^ 31

/-- C `atoi`, which is `(int) strtol(s, NULL, 10)`: leading white space is
skipped, an optional sign is read, then the longest run of decimal digits.  A
string without digits gives 0.  Values within the range of `int` are returned
as they are; beyond it the C standard leaves the result open, and the model
follows glibc (saturation to `long`, then truncation to `int`). -/
def atoi (s : CString) : Int :=
  match s.dropWhile isspace with
  | '-' :: t => toInt32 (clampLong (-(digitsValue 0 t : Int)))
  | '+' :: t => toInt32 (clampLong (digitsValue 0 t))
  | t => toInt32 (clampLong (digitsValue 0 t))

/-- The natural number that a string of decimal digits denotes. -/
def decimalValue (ds : CString) : Nat :=
  ds.foldl (fun acc c => 10 * acc + (c.toNat - 48)) 0

/-- Whether a string consists of one or more decimal digits. -/
def isNumber (ds : CString) : Bool :=
  !ds.isEmpty && ds.all isdigit

/-- The integer value of a string in decimal notation: an optional sign, then
one or more decimal digits, and nothing else; `none` for every other string.
This is the mathematical value, of any size, and does not depend on `atoi`. -/
def intValue : CString → Option Int
  | '-' :: ds => if isNumber ds then some (-(decimalValue ds : Int)) else none
  | '+' :: ds => if isNumber ds then some (decimalValue ds : Int) else none
  | ds => if isNumber ds then some (decimalValue ds : Int) else none

/-! ## main -/

/-- The constant of `#define SHELLPATH "/bin/ash"`. -/
def SHELLPATH : CString := "/bin/ash".toList

/-- The length of `ifr_name` in `struct ifreq`, from the system header
`net/if.h` (16 on Linux and the BSDs). -/
def IFNAMSIZ : Nat := 16

/-- The size of `struct ifreq`, the type of the local object `interface` of
`main`, from the system header `net/if.h`: 40 bytes on 64-bit Linux, the 16
bytes of `ifr_name` followed by a union of 24 bytes. -/
def SIZEOF_IFREQ : Nat := 40

/-- The address `INADDR_ANY`. -/
def INADDR_ANY : Nat := 0

/-- The variables of `main` that option parsing sets: the locals `portnbr`,
`interface_name`, `daemonize`, `no_issue` and the global `loginpath`
(`none` is the NULL pointer). -/
structure Vars where
  portnbr : Int
  interface_name : Option CString
  loginpath : Option CString
  daemonize : Int
  no_issue : Int
  deriving DecidableEq, Repr

/-- The initial values: `portnbr = 23`, `interface_name = NULL`,
`loginpath = NULL`, `daemonize = 0`, `no_issue = 0`. -/
def Vars.init : Vars := ⟨23, none, none, 0, 0⟩

/-- How the option loop ends: `show_usage()` was called (which exits with
status 1), or `getopt` returned -1. -/
inductive ParseResult where
  | usage (v : Vars)
  | parsed (v : Vars)
  deriving DecidableEq, Repr

/-- The body of the `switch (c)` in the option loop, for the cases that
continue the loop; `none` stands for the cases `h` and default, which call
`show_usage()`.  `strdup` is taken to succeed and to yield an equal string;
`getopt` sets `optarg` for the options declared with a colon. -/
def switchOpt (v : Vars) (c : Char) (optarg : Option CString) : Option Vars :=
  if c = 'p' then some { v with portnbr := atoi (optarg.getD []) }
  else if c = 'i' then some { v with interface_name := some (optarg.getD []) }
  else if c = 'l' then some { v with loginpath := some (optarg.getD []) }
  else if c = 'd' then some { v with daemonize := 1 }
  else if c = 'n' then some { v with no_issue := 1 }
  else none

/-- The loop `while ((c = getopt(argc, argv, "i:p:l:hdn")) != -1) switch (c)`,
run for at most `fuel` calls of `getopt`; `none` when the fuel runs out. -/
def optionLoop (posixly_correct : Bool) : Nat → GetoptState → Vars → Option ParseResult
  | 0, _, _ => none
  | fuel + 1, st, v =>
    match getopt posixly_correct optstring st with
    | (.done, _) => some (.parsed v)
    | (.opt c optarg, st2) =>
      match switchOpt v c optarg with
      | none => some (.usage v)
      | some v2 => optionLoop posixly_correct fuel st2 v2

/-- A bound on the number of `getopt` calls a scanning position allows: every
call that does not return -1 uses up a character or an element. -/
def GetoptState.measure (st : GetoptState) : Nat :=
  st.nextchar.length + (st.rest.map (fun a => a.length + 1)).sum

/-- Fuel that lets the option loop run to its end on the arguments `args`. -/
def loopFuel (args : List CString) : Nat :=
  (args.map (fun a => a.length + 1)).sum + 1

/-- What the environment answers to the calls of `main` in one run. -/
structure Env where
  /-- whether POSIXLY_CORRECT is set, which `getopt` consults -/
  posixly_correct : Bool
  /-- result of `access(path, X_OK)` -/
  access : CString → Int
  /-- result of `socket(AF_INET, SOCK_STREAM, 0)` -/
  socket : Int
  /-- result of `setsockopt`, which `main` ignores -/
  setsockopt : Int
  /-- result of `ioctl(master_fd, SIOCGIFADDR, &interface)` for an interface name -/
  ioctl : CString → Int
  /-- the address the ioctl stores in `ifr_addr` for an interface name -/
  ifaddr : CString → Nat
  /-- result of `bind` -/
  bind : Int
  /-- result of `listen` -/
  listen : Int
  /-- result of `daemon(0, 1)` -/
  daemon : Int

/-- The system calls of `main`, with the arguments that matter.  `sin_port`
is given by its two bytes in memory order, which is the order on the wire. -/
inductive Call where
  | access (path : CString)
  | socket
  | setsockopt (fd : Int)
  | ioctl (fd : Int) (name : CString)
  | bind (fd : Int) (sin_port : Nat × Nat) (s_addr : Nat)
  | listen (fd : Int) (backlog : Int)
  | daemon
  | openlog (ident : CString)
  | syslog
  | closelog
  deriving DecidableEq, Repr

/-- How `main` ends: through `exit(status)`, by `return status`, or not in any
way the source defines: `undefined` stands for a run in which a store went
outside the object it was aimed at, so that other variables of `main`, or its
return address, were overwritten.  Such a run may do anything (it may call
further functions with overwritten arguments, or be killed by a signal). -/
inductive Outcome where
  | exit (status : Int)
  | ret (status : Int)
  | undefined
  deriving DecidableEq, Repr

/-- The exit status of the process, when the run has a defined end. -/
def Outcome.status : Outcome → Option Int
  | .exit s => some s
  | .ret s => some s
  | .undefined => none

/-- The function `static void show_usage(void)`: it prints the usage message
and calls `exit(1)`. -/
def show_usage : Outcome := .exit 1

/-- The function `static void perror_msg_and_die(const char *text)`: it prints
the message and calls `exit(1)`. -/
def perror_msg_and_die : Outcome := .exit 1

/-- The observable effect of one run of `main`.  Output to stdout and stderr
is not recorded.  For a run that ends as `undefined`, the record is that of
the run up to the store that left its object. -/
structure MainResult where
  outcome : Outcome
  /-- the system calls made, in order -/
  calls : List Call
  /-- the variables as option parsing left them -/
  vars : Vars
  /-- the global `argv_init[0]` (static storage, `none` is NULL) -/
  argv_init0 : Option CString
  /-- the stores into `interface.ifr_name`, by offset from its first byte -/
  ifr_name_stores : List (Nat × Char)
  /-- the global `maxfd`, when it was assigned -/
  maxfd : Option Int
  deriving DecidableEq, Repr

/-- C `htons` applied to an `int`: the argument is converted to `uint16_t`,
and the result is given by its two bytes in memory, high byte first. -/
def htons (hostshort : Int) : Nat × Nat :=
  let h := (hostshort % 65536).toNat
  (h / 256, h % 256)

/-- The port number that two bytes in network byte order encode. -/
def ntohs (netshort : Nat × Nat) : Int :=
  netshort.1 * 256 + netshort.2

/-- The `appname` of `main`: what follows the last slash of `argv[0]`. -/
def appname (argv0 : CString) : CString :=
  (argv0.reverse.takeWhile (fun c => c != '/')).reverse

/-- The part of `main` from `bind` on. -/
def mainFromBind (env : Env) (argv0 : CString) (v : Vars) (login : CString)
    (master_fd : Int) (s_addr : Nat) (pre : List Call) (ifr : List (Nat × Char)) : MainResult :=
  let c1 := pre ++ [.bind master_fd (htons v.portnbr) s_addr]
  if env.bind < 0 then ⟨.ret 1, c1, v, some login, ifr, none⟩
  else
    let c2 := c1 ++ [.listen master_fd 1]
    if env.listen < 0 then ⟨.ret 1, c2, v, some login, ifr, none⟩
    else
      let c3 := if v.daemonize ≠ 0 then c2 ++ [.daemon] else c2
      if v.daemonize ≠ 0 ∧ env.daemon < 0 then
        ⟨perror_msg_and_die, c3, v, some login, ifr, none⟩
      else
        ⟨.ret 0, c3 ++ [.openlog (appname argv0), .syslog, .closelog], v, some login, ifr,
          some master_fd⟩

/-- The part of `main` after the option loop.  The copy
`strcpy(interface.ifr_name, interface_name)` has no bound.  A name that with
its terminator does not fit into `ifr_name` but fits into the object
`interface` overwrites only the rest of that object, which the ioctl fills in
afterwards, and the run goes on.  A name of `SIZEOF_IFREQ` or more characters
is stored past the end of `interface`, into the other locals of `main`
(`master_fd` among them) and its stack frame: from there on the run is
`undefined`. -/
def mainAfterOptions (env : Env) (argv0 : CString) (v0 : Vars) : MainResult :=
  let login := v0.loginpath.getD SHELLPATH
  let v : Vars := { v0 with loginpath := some login }
  if env.access login < 0 then ⟨perror_msg_and_die, [.access login], v, none, [], none⟩
  else
    let master_fd := env.socket
    if master_fd < 0 then ⟨.ret 1, [.access login, .socket], v, some login, [], none⟩
    else
      let pre : List Call := [.access login, .socket, .setsockopt master_fd]
      match v.interface_name with
      | some name =>
        let ifr := strcpy name
        if SIZEOF_IFREQ ≤ strlen name then ⟨.undefined, pre, v, some login, ifr, none⟩
        else if env.ioctl name < 0 then
          ⟨.ret 1, pre ++ [.ioctl master_fd name], v, some login, ifr, none⟩
        else
          mainFromBind env argv0 v login master_fd (env.ifaddr name)
            (pre ++ [.ioctl master_fd name]) ifr
      | none => mainFromBind env argv0 v login master_fd INADDR_ANY pre []

/-- The function `int main(int argc, char **argv)`, with `argv[0]` and the
remaining arguments given apart; `none` only if the option loop ran out of
fuel (which it does not, see `main_terminates`). -/
def main (env : Env) (argv0 : CString) (args : List CString) : Option MainResult :=
  match optionLoop env.posixly_correct (loopFuel args) ⟨args, []⟩ Vars.init with
  | none => none
  | some (.usage v) => some ⟨show_usage, [], v, none, [], none⟩
  | some (.parsed v) => some (mainAfterOptions env argv0 v)

/-- An environment in which every call of `main` succeeds. -/
def okEnv : Env :=
  { posixly_correct := false, access := fun _ => 0, socket := 3, setsockopt := 0,
    ioctl := fun _ => 0, ifaddr := fun _ => 0x7f000001, bind := 0, listen := 0, daemon := 0 }

/-- An environment in which `bind` fails and every other call succeeds. -/
def bindFailEnv : Env := { okEnv with bind := -1 }

/-- An environment in which no program is executable. -/
def accessFailEnv : Env := { okEnv with access := fun _ => -1 }

/-- An environment in which `daemon` fails and every other call succeeds. -/
def daemonFailEnv : Env := { okEnv with daemon := -1 }

/-- An environment in which the SIOCGIFADDR ioctl fails (no such interface)
and every other call succeeds. -/
def ioctlFailEnv : Env := { okEnv with ioctl := fun _ => -1 }

/-- An interface name of 400 characters. -/
def longIfName : CString := List.replicate 400 'a'

/-- The argument list of a command line, one string per word. -/
def words (l : List String) : List CString := l.map String.toList

/-! ## The options of the usage message -/

/-- The options named in the usage message, `-h` apart: `-p port`,
`-i interface`, `-l loginprogram`, `-d`, `-n`. -/
inductive Opt where
  | p (port : CString)
  | i (interface : CString)
  | l (loginprogram : CString)
  | d
  | n
  deriving DecidableEq, Repr

/-- The option character. -/
def Opt.char : Opt → Char
  | .p _ => 'p'
  | .i _ => 'i'
  | .l _ => 'l'
  | .d => 'd'
  | .n => 'n'

/-- The argument written with the option, if it takes one. -/
def Opt.arg : Opt → Option CString
  | .p a => some a
  | .i a => some a
  | .l a => some a
  | .d => none
  | .n => none

/-- `Encodes opts nextchar rest`: from the scanning position with option
cluster `nextchar` and following argv elements `rest`, the command line spells
exactly the options `opts`, in this order, and nothing else.  Every way of
writing them is covered: options without argument may share one element
(`-dn`), and an argument may be joined to its option (`-p23`) or be the
next element (`-p 23`). -/
inductive Encodes : List Opt → CString → List CString → Prop where
  | done : Encodes [] [] []
  | element (o : Opt) (opts : List Opt) (cs : CString) (rest : List CString) :
      Encodes (o :: opts) (o.char :: cs) rest →
      Encodes (o :: opts) [] (('-' :: o.char :: cs) :: rest)
  | flag (o : Opt) (opts : List Opt) (cs : CString) (rest : List CString) :
      o.arg = none → Encodes opts cs rest → Encodes (o :: opts) (o.char :: cs) rest
  | joined (o : Opt) (a : CString) (opts : List Opt) (rest : List CString) :
      o.arg = some a → a ≠ [] → Encodes opts [] rest →
      Encodes (o :: opts) (o.char :: a) rest
  | apart (o : Opt) (a : CString) (opts : List Opt) (rest : List CString) :
      o.arg = some a → Encodes opts [] rest →
      Encodes (o :: opts) [o.char] (a :: rest)

/-- The command line that writes every option as an element of its own, and
every argument as the element after its option. -/
def render : List Opt → List CString
  | [] => []
  | o :: opts =>
    match o.arg with
    | none => ['-', o.char] :: render opts
    | some a => ['-', o.char] :: a :: render opts

/-- The argument of the last `-p` on the command line. -/
def lastPort (opts : List Opt) : Option CString :=
  (opts.filterMap fun o => match o with | .p a => some a | _ => none).getLast?

/-- The argument of the last `-i` on the command line. -/
def lastInterface (opts : List Opt) : Option CString :=
  (opts.filterMap fun o => match o with | .i a => some a | _ => none).getLast?

/-- The argument of the last `-l` on the command line. -/
def lastLogin (opts : List Opt) : Option CString :=
  (opts.filterMap fun o => match o with | .l a => some a | _ => none).getLast?

/-- The effect of one option on the variables, as the `switch` has it. -/
def applyOpt (v : Vars) : Opt → Vars
  | .p a => { v with portnbr := atoi a }
  | .i a => { v with interface_name := some a }
  | .l a => { v with loginpath := some a }
  | .d => { v with daemonize := 1 }
  | .n => { v with no_issue := 1 }

/-- Whether a call recorded in the trace failed in the environment, for the
calls whose result `main` tests: a negative result of access, socket, the
SIOCGIFADDR ioctl, bind, listen or daemon. -/
def failed (env : Env) : Call → Bool
  | .access path => decide (env.access path < 0)
  | .socket => decide (env.socket < 0)
  | .ioctl _ name => decide (env.ioctl name < 0)
  | .bind _ _ _ => decide (env.bind < 0)
  | .listen _ _ => decide (env.listen < 0)
  | .daemon => decide (env.daemon < 0)
  | _ => false

/-- Whether the interface name, if one was given, is short enough for the
`strcpy` in `main` to stay inside the object `interface`. -/
def nameFits (v : Vars) : Bool :=
  match v.interface_name with
  | some name => decide (strlen name < SIZEOF_IFREQ)
  | none => true

/-- The setup calls in the order of the text of `main`, as they are made when
none of them fails: access, socket, setsockopt, the ioctl when an interface
was given, bind, listen, and daemon when daemonize is set. -/
def setupSteps (env : Env) (v : Vars) : List Call :=
  [.access (v.loginpath.getD SHELLPATH), .socket, .setsockopt env.socket] ++
  (match v.interface_name with
    | some name =>
      [.ioctl env.socket name, .bind env.socket (htons v.portnbr) (env.ifaddr name)]
    | none => [.bind env.socket (htons v.portnbr) INADDR_ANY]) ++
  [.listen env.socket 1] ++ (if v.daemonize ≠ 0 then [.daemon] else [])

/-- The elements of a list up to and including the first one that satisfies
`p`; the whole list when none does. -/
def takeThrough {α : Type} (p : α → Bool) : List α → List α
  | [] => []
  | a :: l => if p a then [a] else a :: takeThrough p l

/-- The option characters for which the `switch` continues the loop. -/
def handledChars : List Char := ['p', 'i', 'l', 'd', 'n']

/-- A command line in mixed style: `-dn -p 2323 -l/bin/sh -p 8023`. -/
def sampleArgs : List CString := words ["-dn", "-p", "2323", "-l/bin/sh", "-p", "8023"]

/-- The options that `sampleArgs` spells. -/
def sampleOpts : List Opt :=
  [.d, .n, .p "2323".toList, .l "/bin/sh".toList, .p "8023".toList]

/-! ## Sessions and their circular buffers -/

/-- The constant of `#define BUFSIZE 4000`. -/
def BUFSIZE : Nat := 4000

/-- The record `struct tsession` (without the `next` link): the descriptors,
the pid of the shell, and two circular buffers, each with its storage, read
index, write index and number of bytes held. -/
structure tsession where
  sockfd : Int
  ptyfd : Int
  shell_pid : Int
  buf1 : List Nat
  buf2 : List Nat
  rdidx1 : Int
  wridx1 : Int
  size1 : Int
  rdidx2 : Int
  wridx2 : Int
  size2 : Int

/-- One circular buffer of a session: storage, read index, write index and
occupied count. -/
structure CircBuf where
  buf : List Nat
  rdidx : Int
  wridx : Int
  size : Int
  deriving DecidableEq, Repr

/-- The two buffers of a session. -/
inductive BufId where
  | one
  | two
  deriving DecidableEq, Repr

/-- The buffer `buf1` with `rdidx1`, `wridx1`, `size1`, or the buffer `buf2`
with `rdidx2`, `wridx2`, `size2`. -/
def tsession.cb (ts : tsession) : BufId → CircBuf
  | .one => ⟨ts.buf1, ts.rdidx1, ts.wridx1, ts.size1⟩
  | .two => ⟨ts.buf2, ts.rdidx2, ts.wridx2, ts.size2⟩

/-- The session with one of its buffers replaced. -/
def tsession.setCb (ts : tsession) : BufId → CircBuf → tsession
  | .one, b => { ts with buf1 := b.buf, rdidx1 := b.rdidx, wridx1 := b.wridx, size1 := b.size }
  | .two, b => { ts with buf2 := b.buf, rdidx2 := b.rdidx, wridx2 := b.wridx, size2 := b.size }

/-- Modelled from the spec: the creation of a session, which the source does
not contain.  The spec (section 3) has both buffers created empty with the
session; the storage of `BUFSIZE` bytes is taken zero-filled. -/
def make_session (sockfd ptyfd shell_pid : Int) : tsession :=
  { sockfd := sockfd, ptyfd := ptyfd, shell_pid := shell_pid,
    buf1 := List.replicate BUFSIZE 0, buf2 := List.replicate BUFSIZE 0,
    rdidx1 := 0, wridx1 := 0, size1 := 0, rdidx2 := 0, wridx2 := 0, size2 := 0 }

/-- Modelled from the spec: the copy into the storage of a Circular Buffer
(section 4.1), which the source does not contain: bytes are stored one after
the other from index `idx` on, wrapping to index 0 past the end. -/
def writeBytes (buf : List Nat) (idx : Nat) : List Nat → List Nat
  | [] => buf
  | b :: bs => writeBytes (buf.set idx b) ((idx + 1) % BUFSIZE) bs

/-- Modelled from the spec: the read from the storage of a Circular Buffer
(section 4.1), which the source does not contain: `n` bytes are read one after
the other from index `idx` on, wrapping to index 0 past the end (the two spans
of the spec). -/
def readBytes (buf : List Nat) (idx : Nat) : Nat → List Nat
  | 0 => []
  | n + 1 => buf.getD idx 0 :: readBytes buf ((idx + 1) % BUFSIZE) n

/-- Modelled from the spec: the operation `append(source_bytes)` of the
Circular Buffer (section 4.1), which the source does not contain: it copies as
many bytes as fit into the free space (capacity minus count), advancing the
write cursor, and returns the number of bytes consumed. -/
def CircBuf.append (b : CircBuf) (source_bytes : List Nat) : CircBuf × Nat :=
  let n := min source_bytes.length ((BUFSIZE : Int) - b.size).toNat
  (⟨writeBytes b.buf b.wridx.toNat (source_bytes.take n), b.rdidx,
      (b.wridx + n) % BUFSIZE, b.size + n⟩, n)

/-- Modelled from the spec: the bytes that `drain(sink_capacity)` of the
Circular Buffer (section 4.1) exposes: up to `sink_capacity` bytes starting at
the read cursor, wrapping past the capacity. -/
def CircBuf.exposed (b : CircBuf) (sink_capacity : Nat) : List Nat :=
  readBytes b.buf b.rdidx.toNat (min sink_capacity b.size.toNat)

/-- Modelled from the spec: the second half of `drain` (section 4.1): after
the caller reports how many bytes the sink consumed, the read cursor advances
and the count decreases by that amount. -/
def CircBuf.consume (b : CircBuf) (consumed : Nat) : CircBuf :=
  ⟨b.buf, (b.rdidx + consumed) % BUFSIZE, b.wridx, b.size - consumed⟩

/-- A sink, such as a non-blocking `write`: offered some bytes, it reports how
many of them it consumed, which is at most the number offered. -/
abbrev Sink := (offered : List Nat) → Fin (offered.length + 1)

/-- Modelled from the spec: the operation `drain(sink_capacity)` of the
Circular Buffer (section 4.1) against a sink: the exposed bytes are offered to
the sink and the buffer gives up what the sink consumed.  The result is the
buffer and the number of bytes drained. -/
def CircBuf.drain (b : CircBuf) (sink_capacity : Nat) (sink : Sink) : CircBuf × Nat :=
  let consumed := (sink (b.exposed sink_capacity)).val
  (b.consume consumed, consumed)

/-- The operations on a circular buffer. -/
inductive BufOp where
  | append (source_bytes : List Nat)
  | drain (sink_capacity : Nat) (sink : Sink)

/-- Modelled from the spec: one call of `append` or `drain` (section 4.1); the
result is the buffer, the number of bytes appended and the number of bytes
drained. -/
def CircBuf.step (b : CircBuf) : BufOp → CircBuf × Nat × Nat
  | .append source_bytes => ((b.append source_bytes).1, (b.append source_bytes).2, 0)
  | .drain sink_capacity sink =>
    ((b.drain sink_capacity sink).1, 0, (b.drain sink_capacity sink).2)

/-- Modelled from the spec: one operation on one of the two buffers of a
session; the other buffer and the rest of the session stay as they are. -/
def tsession.step (ts : tsession) (op : BufId × BufOp) : tsession :=
  ts.setCb op.1 (((ts.cb op.1).step op.2).1)

/-- Modelled from the spec: a sequence of operations on the buffers of a
session, as the event loop (which the source does not contain) issues them. -/
def tsession.run (ts : tsession) (ops : List (BufId × BufOp)) : tsession :=
  ops.foldl tsession.step ts

/-- The invariant of the Circular Buffer (spec, section 3): the storage has
the capacity, the count is within 0 and the capacity, the read index is a
valid index, and the write index is the read index plus the count, modulo the
capacity. -/
def CircBuf.Inv (b : CircBuf) : Prop :=
  b.buf.length = BUFSIZE ∧ 0 ≤ b.size ∧ b.size ≤ BUFSIZE ∧ 0 ≤ b.rdidx ∧ b.rdidx < BUFSIZE ∧
    b.wridx = (b.rdidx + b.size) % BUFSIZE

/-- The bytes a buffer holds, oldest first. -/
def CircBuf.contents (b : CircBuf) : List Nat :=
  readBytes b.buf b.rdidx.toNat b.size.toNat

/-- A sink that takes everything offered. -/
def greedySink : Sink := fun offered => Fin.last offered.length

/-- A sink that takes at most two bytes. -/
def slowSink : Sink := fun offered =>
  ⟨min 2 offered.length, by omega⟩

/-- A short history of a session: three bytes arrive for the first buffer,
and five for the second, of which a slow sink takes two. -/
def sampleOps : List (BufId × BufOp) :=
  [(.one, .append [108, 115, 10]), (.two, .append [36, 32, 108, 115, 10]),
    (.two, .drain 10 slowSink)]

/-! ## The protocol codec -/

/-- The telnet command bytes and option codes of the system header
`arpa/telnet.h` that the codec deals with. -/
def IAC : Nat := 255
/-- The command DONT. -/
def DONT : Nat := 254
/-- The command DO. -/
def DO : Nat := 253
/-- The command WONT. -/
def WONT : Nat := 252
/-- The command WILL. -/
def WILL : Nat := 251
/-- The command SB, which opens a subnegotiation. -/
def SB : Nat := 250
/-- The command SE, which ends a subnegotiation. -/
def SE : Nat := 240
/-- The option ECHO. -/
def TELOPT_ECHO : Nat := 1
/-- The option "suppress go ahead". -/
def TELOPT_SGA : Nat := 3
/-- The option "negotiate about window size". -/
def TELOPT_NAWS : Nat := 31

/-- Modelled from the spec: the states of the codec (section 4.2), which the
source does not contain: DATA, COMMAND, OPTION with the verb seen, and SUBNEG
with the bytes collected so far, apart or after a marker byte. -/
inductive CodecState where
  | data
  | command
  | option (verb : Nat)
  | subneg (collected : List Nat)
  | subnegMarker (collected : List Nat)
  deriving DecidableEq, Repr

/-- What the codec emits: decoded bytes for the pty-bound buffer, reply bytes
for the client-bound buffer, and window sizes (width, height) to apply to the
pseudo-terminal. -/
structure CodecOut where
  ptyBound : List Nat
  clientBound : List Nat
  winsize : List (Nat × Nat)
  deriving DecidableEq, Repr

/-- No output. -/
def CodecOut.none : CodecOut := ⟨[], [], []⟩

/-- Output after output. -/
def CodecOut.andThen (a b : CodecOut) : CodecOut :=
  ⟨a.ptyBound ++ b.ptyBound, a.clientBound ++ b.clientBound, a.winsize ++ b.winsize⟩

/-- Modelled from the spec: the options the engine supports (section 4.2):
the report of terminal dimensions and the suppression of go-ahead. -/
def supported (opt : Nat) : Bool :=
  opt == TELOPT_NAWS || opt == TELOPT_SGA

/-- Modelled from the spec: the proposals the engine accepts (section 4.2): the
client's offer (WILL) to report terminal dimensions, and the suppression of
go-ahead if proposed (WILL or DO). -/
def accepted (verb opt : Nat) : Bool :=
  (verb == WILL && opt == TELOPT_NAWS) || ((verb == WILL || verb == DO) && opt == TELOPT_SGA)

/-- Modelled from the spec: the end of a subnegotiation (section 4.2): the
terminal-size report with its 4-byte payload (width and height, each two bytes
big-endian) is applied as a window size; every other one is discarded. -/
def subnegEnd : List Nat → CodecOut
  | [opt, w1, w0, h1, h0] =>
    if opt = TELOPT_NAWS then ⟨[], [], [(w1 * 256 + w0, h1 * 256 + h0)]⟩ else CodecOut.none
  | _ => CodecOut.none

/-- Modelled from the spec: one byte through the codec of the client-to-pty
direction (section 4.2), which the source does not contain.  In DATA a marker
byte leads to COMMAND and any other byte passes to the pty-bound output.  In
COMMAND a second marker byte is a literal one; a negotiation verb leads to
OPTION; the subnegotiation opener leads to SUBNEG; any other command is
dropped.  In OPTION a proposal (WILL or DO) that is not accepted is refused
(DONT for a WILL, WONT for a DO) in the client-bound output, and nothing goes
to the pty.  In SUBNEG bytes are collected up to the marker followed by SE. -/
def codecStep : CodecState → Nat → CodecState × CodecOut
  | .data, b =>
    if b = IAC then (.command, CodecOut.none) else (.data, ⟨[b], [], []⟩)
  | .command, b =>
    if b = IAC then (.data, ⟨[IAC], [], []⟩)
    else if b = WILL ∨ b = WONT ∨ b = DO ∨ b = DONT then (.option b, CodecOut.none)
    else if b = SB then (.subneg [], CodecOut.none)
    else (.data, CodecOut.none)
  | .option verb, b =>
    if accepted verb b then (.data, CodecOut.none)
    else if verb = WILL then (.data, ⟨[], [IAC, DONT, b], []⟩)
    else if verb = DO then (.data, ⟨[], [IAC, WONT, b], []⟩)
    else (.data, CodecOut.none)
  | .subneg collected, b =>
    if b = IAC then (.subnegMarker collected, CodecOut.none)
    else (.subneg (collected ++ [b]), CodecOut.none)
  | .subnegMarker collected, b =>
    if b = SE then (.data, subnegEnd collected)
    else if b = IAC then (.subneg (collected ++ [IAC]), CodecOut.none)
    else (.subneg collected, CodecOut.none)

/-- Modelled from the spec: a call of the codec on a run of bytes from the
client; the state is carried over from call to call. -/
def codecFeed : CodecState → List Nat → CodecState × CodecOut
  | st, [] => (st, CodecOut.none)
  | st, b :: bs =>
    let r := codecStep st b
    let q := codecFeed r.1 bs
    (q.1, r.2.andThen q.2)

/-- A pathname as the Linux pty driver hands them out. -/
def devPts3 : CString := "/dev/pts/3".toList

/-- A pathname of 64 characters, one more than `line` can take. -/
def longName : CString := List.replicate 64 'a'

/-! ## Lemmas on stores and string copies -/

theorem Mem.apply_nil (m : Mem) : m.apply [] = m := rfl

theorem Mem.apply_append (m : Mem) (a b : List (Nat × Char)) :
    m.apply (a ++ b) = (m.apply a).apply b := by
  simp [Mem.apply, List.foldl_append]

theorem Mem.apply_cons (m : Mem) (w : Nat × Char) (ws : List (Nat × Char)) :
    m.apply (w :: ws) = (m.store w).apply ws := rfl

/-- Stores at offsets other than `j` leave offset `j` alone. -/
theorem Mem.apply_untouched (ws : List (Nat × Char)) (m : Mem) (j : Nat)
    (h : ∀ w ∈ ws, w.1 ≠ j) : m.apply ws j = m j := by
  induction ws generalizing m with
  | nil => rfl
  | cons w ws ih =>
    rw [Mem.apply_cons, ih]
    · have : j ≠ w.1 := fun e => h w (List.mem_cons_self _ _) e.symm
      simp [Mem.store, this]
    · intro v hv
      exact h v (List.mem_cons_of_mem _ hv)

/-- Every store of `strncpy` lies in the window of `n` offsets it may fill. -/
theorem strncpyFrom_offsets (n : Nat) : ∀ (i : Nat) (s : CString),
    ∀ w ∈ strncpyFrom i s n, i ≤ w.1 ∧ w.1 < i + n := by
  induction n with
  | zero => intro i s w hw; simp [strncpyFrom] at hw
  | succ n ih =>
    intro i s w hw
    cases s with
    | nil =>
      simp only [strncpyFrom, List.mem_cons] at hw
      rcases hw with rfl | hw
      · simp
      · have := ih (i + 1) [] w hw; omega
    | cons c cs =>
      simp only [strncpyFrom] at hw
      split at hw
      · simp only [List.mem_cons] at hw
        rcases hw with rfl | hw
        · simp
        · have := ih (i + 1) [] w hw; omega
      · simp only [List.mem_cons] at hw
        rcases hw with rfl | hw
        · simp
        · have := ih (i + 1) cs w hw; omega

theorem cstr_nil : cstr [] = [] := rfl

theorem cstr_cons_nul (c : Char) (cs : CString) (h : c = NUL) : cstr (c :: cs) = [] := by
  simp [cstr, List.takeWhile, h]

theorem cstr_cons (c : Char) (cs : CString) (h : c ≠ NUL) :
    cstr (c :: cs) = c :: cstr cs := by
  have hb : (c != NUL) = true := by simpa using h
  simp [cstr, List.takeWhile, hb]

/-- After `strncpy`, offset `i + k` (for `k < n`) holds the `k`-th character of
the source string, or NUL once the source is exhausted. -/
theorem strncpyFrom_apply (n : Nat) : ∀ (i : Nat) (s : CString) (m : Mem) (k : Nat),
    k < n → m.apply (strncpyFrom i s n) (i + k) = (cstr s).getD k NUL := by
  induction n with
  | zero => intro i s m k hk; omega
  | succ n ih =>
    intro i s m k hk
    cases s with
    | nil =>
      simp only [strncpyFrom, Mem.apply_cons]
      cases k with
      | zero =>
        rw [Mem.apply_untouched]
        · simp [Mem.store, cstr_nil]
        · intro w hw; have := strncpyFrom_offsets n (i + 1) [] w hw; omega
      | succ k =>
        have := ih (i + 1) [] (m.store (i, NUL)) k (by omega)
        rw [show i + (k + 1) = i + 1 + k by omega, this]
        simp [cstr_nil]
    | cons c cs =>
      simp only [strncpyFrom]
      split
      · rename_i hc
        rw [Mem.apply_cons, cstr_cons_nul c cs hc]
        cases k with
        | zero =>
          rw [Mem.apply_untouched]
          · simp [Mem.store]
          · intro w hw; have := strncpyFrom_offsets n (i + 1) [] w hw; omega
        | succ k =>
          have := ih (i + 1) [] (m.store (i, NUL)) k (by omega)
          rw [show i + (k + 1) = i + 1 + k by omega, this]
          simp [cstr_nil]
      · rename_i hc
        rw [Mem.apply_cons, cstr_cons c cs hc]
        cases k with
        | zero =>
          rw [Mem.apply_untouched]
          · simp [Mem.store]
          · intro w hw; have := strncpyFrom_offsets n (i + 1) cs w hw; omega
        | succ k =>
          have := ih (i + 1) cs (m.store (i, c)) k (by omega)
          rw [show i + (k + 1) = i + 1 + k by omega, this]
          simp

/-! ## getpty: return value, cleanup and the contents of `line` -/

theorem getpty_success (env : PtyEnv) (s : CString)
    (hp : 0 ≤ env.posix_openpt) (hg : 0 ≤ env.grantpt) (hu : 0 ≤ env.unlockpt)
    (hs : env.ptsname = some s) :
    getpty env =
      ⟨env.posix_openpt,
        [.posix_openpt, .grantpt env.posix_openpt, .unlockpt env.posix_openpt,
          .ptsname env.posix_openpt],
        strncpy s (MAX_PTY_NAME_LEN - 1) ++ [(MAX_PTY_NAME_LEN - 1, NUL)]⟩ := by
  simp [getpty, hs, not_lt.mpr hp, not_lt.mpr hg, not_lt.mpr hu]

theorem getpty_ret_iff (env : PtyEnv) :
    (getpty env).ret = -1 ↔
      (env.posix_openpt < 0 ∨ env.grantpt < 0 ∨ env.unlockpt < 0 ∨ env.ptsname = none) := by
  unfold getpty
  by_cases hp : env.posix_openpt < 0
  · simp [hp]
  by_cases hg : env.grantpt < 0
  · simp [hp, hg]
  by_cases hu : env.unlockpt < 0
  · simp [hp, hg, hu]
  cases hs : env.ptsname with
  | none => simp [hp, hg, hu]
  | some s =>
    simp only [hp, hg, hu, if_false, false_or, reduceCtorEq, iff_false]
    omega

/-- The buffer `line` after a successful `getpty`, offset by offset. -/
theorem lineAfter_success (env : PtyEnv) (s : CString) (line : Mem)
    (hp : 0 ≤ env.posix_openpt) (hg : 0 ≤ env.grantpt) (hu : 0 ≤ env.unlockpt)
    (hs : env.ptsname = some s) (j : Nat) :
    lineAfter env line j =
      if j < 63 then (cstr s).getD j NUL else if j = 63 then NUL else line j := by
  unfold lineAfter
  rw [getpty_success env s hp hg hu hs]
  simp only [Mem.apply_append, MAX_PTY_NAME_LEN]
  show ((line.apply (strncpy s 63)).store (63, NUL)) j = _
  by_cases h1 : j < 63
  · have hj : j ≠ 63 := by omega
    simp only [Mem.store, hj, if_false, h1, if_true]
    have := strncpyFrom_apply 63 0 s line j h1
    simpa [strncpy] using this
  · by_cases h2 : j = 63
    · simp [Mem.store, h2]
    · simp only [Mem.store, h2, if_false, h1]
      apply Mem.apply_untouched
      intro w hw
      have := strncpyFrom_offsets 63 0 s w hw
      omega

/-- C9: after a successful `getpty` with slave pathname `s`, `line` holds the
first min(strlen s, 63) characters of `s`, then NUL at every offset up to and
including 63; so it is NUL-terminated, it holds exactly `s` when
strlen s ≤ 63, and no offset at or beyond MAX_PTY_NAME_LEN is written. -/
theorem getpty_line_contents (env : PtyEnv) (s : CString) (line : Mem)
    (hret : (getpty env).ret ≠ -1) (hs : env.ptsname = some s) :
    (∀ i, i < min (strlen s) 63 → lineAfter env line i = (cstr s).getD i NUL) ∧
    (∀ i, min (strlen s) 63 ≤ i → i ≤ 63 → lineAfter env line i = NUL) ∧
    lineAfter env line (MAX_PTY_NAME_LEN - 1) = NUL ∧
    (strlen s ≤ 63 → (lineAfter env line).holds (cstr s)) ∧
    (∀ w ∈ (getpty env).stores, w.1 < MAX_PTY_NAME_LEN) ∧
    (∀ i, MAX_PTY_NAME_LEN ≤ i → lineAfter env line i = line i) := by
  have hok := (not_congr (getpty_ret_iff env)).mp hret
  simp only [not_or, not_lt] at hok
  obtain ⟨hp, hg, hu, -⟩ := hok
  have key := lineAfter_success env s line hp hg hu hs
  refine ⟨?_, ?_, ?_, ?_, ?_, ?_⟩
  · intro i hi
    rw [key, if_pos (by omega)]
  · intro i h1 h2
    rw [key]
    by_cases h : i < 63
    · rw [if_pos h]
      exact List.getD_eq_default _ _ (by unfold strlen at h1; omega)
    · rw [if_neg h, if_pos (by omega)]
  · rw [key]; simp [MAX_PTY_NAME_LEN]
  · intro hlen
    unfold strlen at hlen
    constructor
    · intro i hi
      rw [key, if_pos (by omega)]
    · rw [key]
      by_cases h : (cstr s).length < 63
      · rw [if_pos h]
        exact List.getD_eq_default _ _ (le_refl _)
      · rw [if_neg h, if_pos (by omega)]
  · intro w hw
    rw [getpty_success env s hp hg hu hs] at hw
    simp only [List.mem_append, List.mem_singleton] at hw
    rcases hw with hw | rfl
    · have := strncpyFrom_offsets _ 0 s w hw
      simp only [MAX_PTY_NAME_LEN] at this ⊢
      omega
    · simp [MAX_PTY_NAME_LEN]
  · intro i hi
    simp only [MAX_PTY_NAME_LEN] at hi
    rw [key, if_neg (by omega), if_neg (by omega)]

theorem getpty_line_contents_witness :
    (getpty ⟨5, 0, 0, some devPts3⟩).ret ≠ -1 ∧
    (lineAfter ⟨5, 0, 0, some devPts3⟩ (fun _ => 'x')).holds (cstr devPts3) ∧
    lineAfter ⟨5, 0, 0, some devPts3⟩ (fun _ => 'x') 64 = 'x' :=
  have h := getpty_line_contents ⟨5, 0, 0, some devPts3⟩ devPts3 (fun _ => 'x')
    (by decide) rfl
  ⟨by decide, h.2.2.2.1 (by decide), h.2.2.2.2.2 64 (by decide)⟩

/-- C2, as stated, fails: with a 64-character slave pathname `getpty` succeeds
and returns the master descriptor, but `line` does not hold that pathname
(it holds the first 63 characters only). -/
theorem getpty_long_name_not_in_line :
    (getpty ⟨5, 0, 0, some longName⟩).ret = 5 ∧
    cstr longName = longName ∧
    ¬ (lineAfter ⟨5, 0, 0, some longName⟩ (fun _ => 'x')).holds longName ∧
    (lineAfter ⟨5, 0, 0, some longName⟩ (fun _ => 'x')).holds (longName.take 63) := by
  decide

/-- C2 (amended): `getpty` returns -1 exactly when posix_openpt returned a
negative descriptor, or grantpt or unlockpt returned a negative value, or
ptsname returned NULL; in every other case it returns the non-negative master
descriptor of posix_openpt, and `line` holds the slave pathname cut to its
first 63 characters (MAX_PTY_NAME_LEN - 1), which is the whole pathname when
it is that short. -/
theorem getpty_result (env : PtyEnv) (line : Mem) :
    ((getpty env).ret = -1 ↔
      (env.posix_openpt < 0 ∨ env.grantpt < 0 ∨ env.unlockpt < 0 ∨ env.ptsname = none)) ∧
    ((getpty env).ret ≠ -1 →
      (getpty env).ret = env.posix_openpt ∧ 0 ≤ (getpty env).ret ∧
      ∃ s, env.ptsname = some s ∧
        (lineAfter env line).holds ((cstr s).take (MAX_PTY_NAME_LEN - 1)) ∧
        (strlen s ≤ MAX_PTY_NAME_LEN - 1 → (lineAfter env line).holds (cstr s))) := by
  refine ⟨getpty_ret_iff env, ?_⟩
  intro hret
  have hok := (not_congr (getpty_ret_iff env)).mp hret
  simp only [not_or, not_lt] at hok
  obtain ⟨hp, hg, hu, hn⟩ := hok
  obtain ⟨s, hs⟩ := Option.ne_none_iff_exists'.mp hn
  have key := lineAfter_success env s line hp hg hu hs
  have hr : (getpty env).ret = env.posix_openpt := by
    rw [getpty_success env s hp hg hu hs]
  have htake : (lineAfter env line).holds ((cstr s).take 63) := by
    constructor
    · intro i hi
      rw [List.length_take] at hi
      rw [key, if_pos (by omega)]
      simp [List.getD_eq_getElem?_getD, List.getElem?_take, show i < 63 by omega]
    · rw [List.length_take, key]
      by_cases h : (cstr s).length < 63
      · rw [if_pos (by omega)]
        exact List.getD_eq_default _ _ (by omega)
      · rw [if_neg (by omega), if_pos (by omega)]
  refine ⟨hr, hr ▸ hp, s, hs, htake, ?_⟩
  intro hlen
  have : (cstr s).take 63 = cstr s := List.take_of_length_le (by
    simpa [strlen, MAX_PTY_NAME_LEN] using hlen)
  simpa [this] using htake

theorem getpty_result_witness :
    (getpty ⟨5, 0, 0, some devPts3⟩).ret ≠ -1 ∧
    (getpty ⟨5, 0, 0, some devPts3⟩).ret = 5 ∧
    (getpty ⟨-1, 0, 0, some devPts3⟩).ret = -1 :=
  ⟨by decide,
   ((getpty_result ⟨5, 0, 0, some devPts3⟩ (fun _ => 'x')).2 (by decide)).1,
   (getpty_result ⟨-1, 0, 0, some devPts3⟩ (fun _ => 'x')).1.mpr (Or.inl (by decide))⟩

/-- C8: whenever `getpty` returns -1, `line` has not been written, and the
master descriptor, if posix_openpt delivered one, was closed exactly once, as
the last call before returning; without a descriptor nothing is closed. -/
theorem getpty_failure_cleanup (env : PtyEnv) (h : (getpty env).ret = -1) :
    (getpty env).stores = [] ∧
    (0 ≤ env.posix_openpt →
      (getpty env).calls.count (.close env.posix_openpt) = 1 ∧
      (getpty env).calls.getLast? = some (.close env.posix_openpt) ∧
      ∀ fd, PtyCall.close fd ∈ (getpty env).calls → fd = env.posix_openpt) ∧
    (env.posix_openpt < 0 → ∀ fd, PtyCall.close fd ∉ (getpty env).calls) := by
  have hfail := (getpty_ret_iff env).mp h
  unfold getpty
  by_cases hp : env.posix_openpt < 0
  · simp [hp, not_le.mpr hp]
  by_cases hg : env.grantpt < 0
  · simp [hp, hg, List.count_cons]
  by_cases hu : env.unlockpt < 0
  · simp [hp, hg, hu, List.count_cons]
  cases hs : env.ptsname with
  | none => simp [hp, hg, hu, List.count_cons]
  | some s => simp [hp, hg, hu, hs] at hfail

theorem getpty_failure_cleanup_witness :
    (getpty ⟨5, -1, 0, some devPts3⟩).ret = -1 ∧
    (getpty ⟨5, -1, 0, some devPts3⟩).stores = [] ∧
    (getpty ⟨5, -1, 0, some devPts3⟩).calls.count (.close 5) = 1 :=
  have h := getpty_failure_cleanup ⟨5, -1, 0, some devPts3⟩ (by decide)
  ⟨by decide, h.1, (h.2.1 (by decide)).1⟩

/-! ## The option loop terminates -/

theorem getoptChar_measure (opts : CString) (c : Char) (cs : CString) (rest : List CString) :
    (getoptChar opts c cs rest).2.measure ≤
      cs.length + (rest.map (fun a => a.length + 1)).sum := by
  unfold getoptChar
  split
  · simp [GetoptState.measure]
  · split
    · simp [GetoptState.measure]
    · simp [GetoptState.measure]
    · split
      · simp [GetoptState.measure]
      · split
        · simp [GetoptState.measure]
        · simp [GetoptState.measure]

theorem nextOptionElement_measure (pc : Bool) (rest : List CString) :
    ∀ cl rest2, nextOptionElement pc rest = some (cl, rest2) →
      cl.length + (rest2.map (fun a => a.length + 1)).sum + 2
        ≤ (rest.map (fun a => a.length + 1)).sum := by
  induction rest with
  | nil => intro cl rest2 h; simp [nextOptionElement] at h
  | cons a rest ih =>
    intro cl rest2 h
    unfold nextOptionElement at h
    split at h
    · simp at h
    · split at h
      · simp only [Option.some.injEq, Prod.mk.injEq] at h
        obtain ⟨rfl, rfl⟩ := h
        simp only [List.map_cons, List.sum_cons, List.length_cons]
        omega
      · split at h
        · simp at h
        · have := ih cl rest2 h
          simp only [List.map_cons, List.sum_cons]
          omega

/-- Every call of `getopt` that delivers an option moves the scan forward. -/
theorem getopt_measure (pc : Bool) (opts : CString) (st st2 : GetoptState)
    (c : Char) (a : Option CString) (h : getopt pc opts st = (.opt c a, st2)) :
    st2.measure < st.measure := by
  unfold getopt at h
  split at h
  · rename_i c0 cs hnc
    have := getoptChar_measure opts c0 cs st.rest
    rw [h] at this
    simp only [GetoptState.measure, hnc, List.length_cons] at this ⊢
    omega
  · rename_i hnc
    split at h
    · simp at h
    · rename_i c0 cs rest hnext
      have h1 := nextOptionElement_measure pc st.rest _ _ hnext
      have := getoptChar_measure opts c0 cs rest
      rw [h] at this
      simp only [GetoptState.measure, hnc, List.length_cons, List.length_nil] at this h1 ⊢
      omega
    · simp at h

/-- With more fuel than the measure of the scanning position, the option loop
runs to its end. -/
theorem optionLoop_terminates (pc : Bool) : ∀ (fuel : Nat) (st : GetoptState) (v : Vars),
    st.measure < fuel → ∃ r, optionLoop pc fuel st v = some r := by
  intro fuel
  induction fuel with
  | zero => intro st v h; omega
  | succ fuel ih =>
    intro st v h
    unfold optionLoop
    rcases hg : getopt pc optstring st with ⟨r, st2⟩
    cases r with
    | done => exact ⟨_, rfl⟩
    | opt c a =>
      have hm := getopt_measure pc optstring st st2 c a hg
      simp only
      cases hs : switchOpt v c a with
      | none => exact ⟨_, rfl⟩
      | some v2 => exact ih st2 v2 (by omega)

theorem loopFuel_measure (args : List CString) :
    (GetoptState.mk args []).measure < loopFuel args := by
  simp [GetoptState.measure, loopFuel]

/-- The model of `main` yields a result for every environment and command
line: the fuel of the option loop never runs out. -/
theorem main_terminates (env : Env) (argv0 : CString) (args : List CString) :
    ∃ r, main env argv0 args = some r := by
  obtain ⟨r, hr⟩ := optionLoop_terminates env.posixly_correct (loopFuel args)
    ⟨args, []⟩ Vars.init (loopFuel_measure args)
  unfold main
  rw [hr]
  cases r with
  | usage v => exact ⟨_, rfl⟩
  | parsed v => exact ⟨_, rfl⟩

/-! ## atoi on decimal notation, htons, strcpy -/

theorem atoi_digit_head (c : Char) (t : CString) (h : isdigit c = true) :
    atoi (c :: t) = toInt32 (clampLong (digitsValue 0 (c :: t))) := by
  have hs : isspace c = false := by
    simp only [isdigit, Bool.and_eq_true, decide_eq_true_eq] at h
    have : c ≠ ' ' := by rintro rfl; simp at h
    simp [isspace, this]
    omega
  have hm : c ≠ '-' := by rintro rfl; simp [isdigit] at h
  have hp : c ≠ '+' := by rintro rfl; simp [isdigit] at h
  unfold atoi
  simp only [List.dropWhile, hs]
  split
  · rename_i heq; simp at heq; exact absurd heq.1 hm
  · rename_i heq; simp at heq; exact absurd heq.1 hp
  · rfl

theorem atoi_minus (t : CString) :
    atoi ('-' :: t) = toInt32 (clampLong (-(digitsValue 0 t : Int))) := rfl

theorem atoi_plus (t : CString) :
    atoi ('+' :: t) = toInt32 (clampLong (digitsValue 0 t : Int)) := rfl

/-- On a string of digits the scan of `atoi` reads every character. -/
theorem digitsValue_all (ds : CString) : ∀ (acc : Nat), ds.all isdigit = true →
    digitsValue acc ds = ds.foldl (fun a c => 10 * a + (c.toNat - 48)) acc := by
  induction ds with
  | nil => intro acc _; rfl
  | cons c cs ih =>
    intro acc h
    simp only [List.all_cons, Bool.and_eq_true] at h
    simp only [digitsValue, h.1, if_true, List.foldl_cons]
    exact ih _ h.2

theorem digitsValue_number (ds : CString) (h : isNumber ds = true) :
    digitsValue 0 ds = decimalValue ds := by
  simp only [isNumber, Bool.and_eq_true] at h
  exact digitsValue_all ds 0 h.2

theorem toInt32_clampLong (n : Int) (h1 : -(2 ^ 31) ≤ n) (h2 : n < 2 ^ 31) :
    toInt32 (clampLong n) = n := by
  simp only [clampLong, toInt32]
  split <;> [skip; split] <;> omega

/-- C `atoi` gives a string in decimal notation whose integer value lies
within the range of `int` that value. -/
theorem atoi_intValue (a : CString) (n : Int) (h : intValue a = some n)
    (h1 : -(2 ^ 31) ≤ n) (h2 : n < 2 ^ 31) : atoi a = n := by
  unfold intValue at h
  split at h
  · split at h
    · rename_i hn
      simp only [Option.some.injEq] at h
      rw [atoi_minus, digitsValue_number _ hn, h]
      exact toInt32_clampLong n h1 h2
    · cases h
  · split at h
    · rename_i hn
      simp only [Option.some.injEq] at h
      rw [atoi_plus, digitsValue_number _ hn, h]
      exact toInt32_clampLong n h1 h2
    · cases h
  · split at h
    · rename_i hn
      simp only [Option.some.injEq] at h
      cases a with
      | nil => simp [isNumber] at hn
      | cons c t =>
        have hc : isdigit c = true := by
          have := hn
          simp only [isNumber, List.all_cons, Bool.and_eq_true] at this
          exact this.2.1
        rw [atoi_digit_head c t hc, digitsValue_number _ hn, h]
        exact toInt32_clampLong n h1 h2
    · cases h

theorem ntohs_htons (n : Int) : ntohs (htons n) = n % 65536 := by
  simp only [ntohs, htons]
  omega

/-- The port that `sin_port` encodes is the argument of `htons` modulo 2^16: the
argument itself exactly when it lies within 0..65535. -/
theorem ntohs_htons_iff (n : Int) : ntohs (htons n) = n ↔ 0 ≤ n ∧ n < 65536 := by
  rw [ntohs_htons]
  omega

theorem strcpyFrom_spec (s : CString) : ∀ (i : Nat),
    (i + strlen s, NUL) ∈ strcpyFrom i s ∧ (strcpyFrom i s).length = strlen s + 1 := by
  induction s with
  | nil => intro i; simp [strcpyFrom, strlen, cstr_nil]
  | cons c cs ih =>
    intro i
    unfold strcpyFrom
    split
    · rename_i hc
      simp [strlen, cstr_cons_nul c cs hc]
    · rename_i hc
      have := ih (i + 1)
      simp only [strlen, cstr_cons c cs hc, List.length_cons, List.mem_cons] at this ⊢
      refine ⟨Or.inr ?_, by omega⟩
      rw [show i + ((cstr cs).length + 1) = i + 1 + (cstr cs).length by omega]
      exact this.1

/-- C `strcpy` stores the whole string and its terminator: `strlen s + 1`
characters, the last of them at offset `strlen s`. -/
theorem strcpy_spec (s : CString) :
    (strlen s, NUL) ∈ strcpy s ∧ (strcpy s).length = strlen s + 1 := by
  have := strcpyFrom_spec s 0
  simpa [strcpy] using this

/-! ## What the option loop computes on the options of the usage message -/

theorem switchOpt_opt (v : Vars) (o : Opt) :
    switchOpt v o.char o.arg = some (applyOpt v o) := by
  cases o <;> rfl

theorem getoptChar_flag (o : Opt) (cs : CString) (rest : List CString) (h : o.arg = none) :
    getoptChar optstring o.char cs rest = (.opt o.char o.arg, ⟨rest, cs⟩) := by
  cases o <;> first | rfl | simp [Opt.arg] at h

theorem getoptChar_joined (o : Opt) (a : CString) (rest : List CString)
    (h : o.arg = some a) (hne : a ≠ []) :
    getoptChar optstring o.char a rest = (.opt o.char o.arg, ⟨rest, []⟩) := by
  cases a with
  | nil => exact absurd rfl hne
  | cons x xs =>
    cases o <;> simp only [Opt.arg, Option.some.injEq, reduceCtorEq] at h <;> subst h <;> rfl

theorem getoptChar_apart (o : Opt) (a : CString) (rest : List CString)
    (h : o.arg = some a) :
    getoptChar optstring o.char [] (a :: rest) = (.opt o.char o.arg, ⟨rest, []⟩) := by
  cases o <;> simp only [Opt.arg, Option.some.injEq, reduceCtorEq] at h <;> subst h <;> rfl

theorem getopt_element (pc : Bool) (o : Opt) (cs : CString) (rest : List CString) :
    getopt pc optstring ⟨('-' :: o.char :: cs) :: rest, []⟩ =
      getopt pc optstring ⟨rest, o.char :: cs⟩ := by
  have hne : ('-' :: o.char :: cs) ≠ ['-', '-'] := by
    cases o <;> simp [Opt.char]
  simp [getopt, nextOptionElement, hne]

theorem optionLoop_element (pc : Bool) (fuel : Nat) (o : Opt) (cs : CString)
    (rest : List CString) (v : Vars) :
    optionLoop pc fuel ⟨('-' :: o.char :: cs) :: rest, []⟩ v =
      optionLoop pc fuel ⟨rest, o.char :: cs⟩ v := by
  cases fuel with
  | zero => rfl
  | succ fuel => simp only [optionLoop, getopt_element]

theorem optionLoop_step (pc : Bool) (fuel : Nat) (o : Opt) (cs : CString)
    (rest : List CString) (st2 : GetoptState) (v : Vars)
    (h : getoptChar optstring o.char cs rest = (.opt o.char o.arg, st2)) :
    optionLoop pc (fuel + 1) ⟨rest, o.char :: cs⟩ v =
      optionLoop pc fuel st2 (applyOpt v o) := by
  simp only [optionLoop, getopt, h, switchOpt_opt]

/-- On a command line that spells the options `opts`, the option loop ends
with `getopt` returning -1, after the effect of each option in turn. -/
theorem optionLoop_encodes (pc : Bool) (opts : List Opt) (nc : CString) (rest : List CString)
    (h : Encodes opts nc rest) : ∀ (v : Vars) (fuel : Nat),
    (GetoptState.mk rest nc).measure < fuel →
    optionLoop pc fuel ⟨rest, nc⟩ v = some (.parsed (opts.foldl applyOpt v)) := by
  induction h with
  | done =>
    intro v fuel hf
    cases fuel with
    | zero => omega
    | succ fuel => rfl
  | element o opts cs rest _ ih =>
    intro v fuel hf
    rw [optionLoop_element]
    apply ih
    simp only [GetoptState.measure, List.map_cons, List.sum_cons, List.length_cons,
      List.length_nil] at hf ⊢
    omega
  | flag o opts cs rest ho _ ih =>
    intro v fuel hf
    cases fuel with
    | zero => omega
    | succ fuel =>
      rw [optionLoop_step pc fuel o cs rest _ v (getoptChar_flag o cs rest ho)]
      apply ih
      simp only [GetoptState.measure, List.length_cons] at hf ⊢
      omega
  | joined o a opts rest ho hne _ ih =>
    intro v fuel hf
    cases fuel with
    | zero => omega
    | succ fuel =>
      rw [optionLoop_step pc fuel o a rest _ v (getoptChar_joined o a rest ho hne)]
      apply ih
      simp only [GetoptState.measure, List.length_cons, List.length_nil] at hf ⊢
      omega
  | apart o a opts rest ho _ ih =>
    intro v fuel hf
    cases fuel with
    | zero => omega
    | succ fuel =>
      rw [optionLoop_step pc fuel o [] (a :: rest) _ v (getoptChar_apart o a rest ho)]
      apply ih
      simp only [GetoptState.measure, List.map_cons, List.sum_cons, List.length_cons,
        List.length_nil] at hf ⊢
      omega

theorem sampleArgs_encodes : Encodes sampleOpts [] sampleArgs :=
  .element .d _ ['n'] _ (.flag .d _ ['n'] _ rfl (.flag .n _ [] _ rfl
    (.element (.p "2323".toList) _ [] _ (.apart (.p "2323".toList) "2323".toList _ _ rfl
      (.element (.l "/bin/sh".toList) _ "/bin/sh".toList _
        (.joined (.l "/bin/sh".toList) "/bin/sh".toList _ _ rfl (by decide)
          (.element (.p "8023".toList) _ [] _
            (.apart (.p "8023".toList) "8023".toList _ _ rfl .done))))))))

/-- The canonical way of writing the options is one of the ways covered. -/
theorem encodes_render (opts : List Opt) : Encodes opts [] (render opts) := by
  induction opts with
  | nil => exact .done
  | cons o opts ih =>
    unfold render
    cases ho : o.arg with
    | none => exact .element o opts [] _ (.flag o opts [] _ ho ih)
    | some a => exact .element o opts [] _ (.apart o a opts _ ho ih)

theorem foldl_applyOpt_portnbr (opts : List Opt) (v : Vars) :
    (opts.foldl applyOpt v).portnbr =
      match lastPort opts with
      | some a => atoi a
      | none => v.portnbr := by
  induction opts using List.reverseRecOn with
  | nil => rfl
  | append_singleton opts o ih =>
    rw [List.foldl_concat]
    unfold lastPort at ih ⊢
    rw [List.filterMap_append]
    cases o <;> simp [applyOpt, ih]

theorem foldl_applyOpt_interface (opts : List Opt) (v : Vars) :
    (opts.foldl applyOpt v).interface_name =
      match lastInterface opts with
      | some a => some a
      | none => v.interface_name := by
  induction opts using List.reverseRecOn with
  | nil => rfl
  | append_singleton opts o ih =>
    rw [List.foldl_concat]
    unfold lastInterface at ih ⊢
    rw [List.filterMap_append]
    cases o <;> simp [applyOpt, ih]

theorem foldl_applyOpt_loginpath (opts : List Opt) (v : Vars) :
    (opts.foldl applyOpt v).loginpath =
      match lastLogin opts with
      | some a => some a
      | none => v.loginpath := by
  induction opts using List.reverseRecOn with
  | nil => rfl
  | append_singleton opts o ih =>
    rw [List.foldl_concat]
    unfold lastLogin at ih ⊢
    rw [List.filterMap_append]
    cases o <;> simp [applyOpt, ih]

theorem foldl_applyOpt_daemonize (opts : List Opt) (v : Vars) :
    (opts.foldl applyOpt v).daemonize = if Opt.d ∈ opts then 1 else v.daemonize := by
  induction opts using List.reverseRecOn with
  | nil => rfl
  | append_singleton opts o ih =>
    rw [List.foldl_concat]
    cases o <;> simp [applyOpt, ih]

theorem foldl_applyOpt_no_issue (opts : List Opt) (v : Vars) :
    (opts.foldl applyOpt v).no_issue = if Opt.n ∈ opts then 1 else v.no_issue := by
  induction opts using List.reverseRecOn with
  | nil => rfl
  | append_singleton opts o ih =>
    rw [List.foldl_concat]
    cases o <;> simp [applyOpt, ih]

/-- On a command line that spells options of the usage message, `main` gets
past the option loop. -/
theorem main_encodes (env : Env) (argv0 : CString) (args : List CString) (opts : List Opt)
    (h : Encodes opts [] args) :
    main env argv0 args = some (mainAfterOptions env argv0 (opts.foldl applyOpt Vars.init)) := by
  unfold main
  rw [optionLoop_encodes env.posixly_correct opts [] args h Vars.init (loopFuel args)
    (loopFuel_measure args)]

theorem mainAfterOptions_vars (env : Env) (argv0 : CString) (v : Vars) :
    (mainAfterOptions env argv0 v).vars =
      { v with loginpath := some (v.loginpath.getD SHELLPATH) } := by
  unfold mainAfterOptions mainFromBind
  simp only
  repeat' split
  all_goals rfl

theorem mainAfterOptions_argv_init (env : Env) (argv0 : CString) (v : Vars)
    (h : 0 ≤ env.access (v.loginpath.getD SHELLPATH)) :
    (mainAfterOptions env argv0 v).argv_init0 = some (v.loginpath.getD SHELLPATH) := by
  unfold mainAfterOptions mainFromBind
  simp only [not_lt.mpr h, if_false]
  repeat' split
  all_goals rfl

theorem mainAfterOptions_access_fails (env : Env) (argv0 : CString) (v : Vars)
    (h : env.access (v.loginpath.getD SHELLPATH) < 0) :
    mainAfterOptions env argv0 v =
      ⟨.exit 1, [.access (v.loginpath.getD SHELLPATH)],
        { v with loginpath := some (v.loginpath.getD SHELLPATH) }, none, [], none⟩ := by
  unfold mainAfterOptions
  simp only [h, if_true]
  rfl

/-- C4, as stated, fails in two places.  With `-p 99999999999` the integer
value of the argument is 99999999999, which no `int` holds: the port is
1215752191.  And with a login program that is not executable, option parsing
leaves the login program "/bin/ash" while `argv_init[0]` is still NULL when
the process exits. -/
theorem main_port_beyond_int :
    Encodes [.p "99999999999".toList] [] (words ["-p", "99999999999"]) ∧
    intValue "99999999999".toList = some 99999999999 ∧
    (∃ r, main okEnv "telnetd".toList (words ["-p", "99999999999"]) = some r ∧
      r.vars.portnbr = 1215752191) ∧
    Encodes [] [] [] ∧
    (∃ r, main accessFailEnv "telnetd".toList [] = some r ∧
      r.vars.loginpath = some SHELLPATH ∧ r.argv_init0 = none) :=
  ⟨.element (.p "99999999999".toList) _ [] _
      (.apart (.p "99999999999".toList) "99999999999".toList _ _ rfl .done),
    by decide, ⟨_, rfl, by decide⟩, .done, ⟨_, rfl, by decide, by decide⟩⟩

/-- C4 (amended): on every command line that spells only options of the usage
message (`-p port`, `-i interface`, `-l loginprogram`, `-d`, `-n`, written in
any of the ways `getopt` accepts), `main` gets past option parsing with: the
port `atoi` of the last `-p` argument, which is the integer value of that
argument whenever it is in decimal notation and its value lies within the
range of `int`, or 23 without `-p`; the bind interface the last `-i` argument,
or none; the login program the last `-l` argument, or "/bin/ash"; daemonize
set iff `-d` occurs; no_issue set iff `-n` occurs; and `argv_init[0]` that
login program if the access check on it did not fail, while if it failed the
process exits with status 1 and `argv_init[0]` is left NULL. -/
theorem main_option_parsing (env : Env) (argv0 : CString) (args : List CString)
    (opts : List Opt) (h : Encodes opts [] args) :
    ∃ r, main env argv0 args = some r ∧
      r.vars.portnbr = (match lastPort opts with | some a => atoi a | none => 23) ∧
      (∀ a n, lastPort opts = some a → intValue a = some n →
        -(2 ^ 31) ≤ n → n < 2 ^ 31 → r.vars.portnbr = n) ∧
      r.vars.interface_name = lastInterface opts ∧
      r.vars.loginpath = some ((lastLogin opts).getD SHELLPATH) ∧
      (r.vars.daemonize ≠ 0 ↔ Opt.d ∈ opts) ∧
      (r.vars.no_issue ≠ 0 ↔ Opt.n ∈ opts) ∧
      (0 ≤ env.access ((lastLogin opts).getD SHELLPATH) →
        r.argv_init0 = some ((lastLogin opts).getD SHELLPATH)) ∧
      (env.access ((lastLogin opts).getD SHELLPATH) < 0 →
        r.argv_init0 = none ∧ r.outcome = .exit 1) := by
  refine ⟨_, main_encodes env argv0 args opts h, ?_⟩
  have hl : (opts.foldl applyOpt Vars.init).loginpath = lastLogin opts := by
    rw [foldl_applyOpt_loginpath]
    cases lastLogin opts <;> rfl
  rw [mainAfterOptions_vars]
  refine ⟨?_, ?_, ?_, ?_, ?_, ?_, ?_, ?_⟩
  · rw [foldl_applyOpt_portnbr]
    cases lastPort opts <;> rfl
  · intro a n ha hn h1 h2
    simp only [foldl_applyOpt_portnbr, ha]
    exact atoi_intValue a n hn h1 h2
  · simp only [foldl_applyOpt_interface]
    cases lastInterface opts <;> rfl
  · simp only [hl]
  · simp only [foldl_applyOpt_daemonize]
    by_cases hd : Opt.d ∈ opts <;> simp [hd, Vars.init]
  · simp only [foldl_applyOpt_no_issue]
    by_cases hn : Opt.n ∈ opts <;> simp [hn, Vars.init]
  · intro hacc
    have := mainAfterOptions_argv_init env argv0 (opts.foldl applyOpt Vars.init)
      (by rw [hl]; exact hacc)
    rw [this, hl]
  · intro hacc
    have := mainAfterOptions_access_fails env argv0 (opts.foldl applyOpt Vars.init)
      (by rw [hl]; exact hacc)
    rw [this]
    exact ⟨rfl, rfl⟩

theorem main_option_parsing_witness :
    Encodes sampleOpts [] sampleArgs ∧
    lastPort sampleOpts = some "8023".toList ∧
    intValue "8023".toList = some 8023 ∧
    0 ≤ okEnv.access ((lastLogin sampleOpts).getD SHELLPATH) ∧
    accessFailEnv.access ((lastLogin sampleOpts).getD SHELLPATH) < 0 ∧
    (∃ r, main okEnv "telnetd".toList sampleArgs = some r ∧
      r.vars.portnbr = 8023 ∧
      r.vars = ⟨8023, none, some "/bin/sh".toList, 1, 1⟩ ∧
      r.argv_init0 = some "/bin/sh".toList) ∧
    (∃ r, main accessFailEnv "telnetd".toList sampleArgs = some r ∧
      r.argv_init0 = none ∧ r.outcome = .exit 1) := by
  obtain ⟨r, hr, _, hnum, _, _, _, _, ha, _⟩ :=
    main_option_parsing okEnv "telnetd".toList sampleArgs sampleOpts sampleArgs_encodes
  obtain ⟨r2, hr2, _, _, _, _, _, _, _, hf⟩ :=
    main_option_parsing accessFailEnv "telnetd".toList sampleArgs sampleOpts
      sampleArgs_encodes
  refine ⟨sampleArgs_encodes, by decide, by decide, by decide, by decide,
    ⟨r, hr, hnum "8023".toList 8023 (by decide) (by decide) (by decide) (by decide), ?_, ha (by decide)⟩,
    ⟨r2, hr2, hf (by decide)⟩⟩
  rw [main_encodes okEnv _ _ _ sampleArgs_encodes] at hr
  cases hr
  decide

/-! ## The setup steps of `main` -/

/-- Options written in the canonical way at the head of the command line are
consumed one call of `getopt` each. -/
theorem optionLoop_render_append (pc : Bool) (tail : List CString) :
    ∀ (opts : List Opt) (v : Vars) (fuel : Nat),
    optionLoop pc (fuel + opts.length) ⟨render opts ++ tail, []⟩ v =
      optionLoop pc fuel ⟨tail, []⟩ (opts.foldl applyOpt v) := by
  intro opts
  induction opts with
  | nil => intro v fuel; rfl
  | cons o opts ih =>
    intro v fuel
    rw [List.length_cons, ← Nat.add_assoc, List.foldl_cons, ← ih (applyOpt v o) fuel]
    cases ho : o.arg with
    | none =>
      simp only [render, ho, List.cons_append]
      rw [optionLoop_element,
        optionLoop_step pc _ o [] _ _ v (getoptChar_flag o [] _ ho)]
    | some a =>
      simp only [render, ho, List.cons_append]
      rw [optionLoop_element,
        optionLoop_step pc _ o [] _ _ v (getoptChar_apart o a _ ho)]

theorem render_measure (opts : List Opt) :
    opts.length ≤ ((render opts).map (fun a => a.length + 1)).sum := by
  induction opts with
  | nil => simp [render]
  | cons o opts ih =>
    cases ho : o.arg with
    | none =>
      simp only [render, ho, List.map_cons, List.sum_cons, List.length_cons]
      omega
    | some a =>
      simp only [render, ho, List.map_cons, List.sum_cons, List.length_cons]
      omega

theorem optstring_eq : optstring = ['i', ':', 'p', ':', 'l', ':', 'h', 'd', 'n'] := by
  decide

/-- An option character that the `switch` does not handle (`h`, or one that
`getopt` answers with a question mark) leads to `show_usage()`. -/
theorem getoptChar_unhandled (c : Char) (cs : CString) (rest : List CString) (v : Vars)
    (hc : c ∉ handledChars) :
    ∃ c2 a st2, getoptChar optstring c cs rest = (.opt c2 a, st2) ∧
      switchOpt v c2 a = none := by
  simp only [handledChars, List.mem_cons, List.mem_singleton, List.not_mem_nil, or_false,
    not_or] at hc
  obtain ⟨hp, hi, hl, hd, hn⟩ := hc
  unfold getoptChar
  split
  · exact ⟨_, _, _, rfl, rfl⟩
  · rename_i hcolon
    simp only [not_or] at hcolon
    by_cases hh : c = 'h'
    · subst hh
      exact ⟨_, _, _, rfl, rfl⟩
    · have hlook : lookupOpt optstring c = none := by
        simp [optstring_eq, lookupOpt, Ne.symm hp, Ne.symm hi, Ne.symm hl, Ne.symm hd,
          Ne.symm hn, Ne.symm hh, Ne.symm hcolon.1]
      rw [hlook]
      exact ⟨_, _, _, rfl, rfl⟩

/-- A command line with canonical options followed by an element that starts
an unhandled option ends the option loop in `show_usage()`. -/
theorem optionLoop_usage (pc : Bool) (opts : List Opt) (c : Char) (cs : CString)
    (more : List CString) (hc : c ∉ handledChars) (hdd : '-' :: c :: cs ≠ ['-', '-']) :
    optionLoop pc (loopFuel (render opts ++ ('-' :: c :: cs) :: more))
        ⟨render opts ++ ('-' :: c :: cs) :: more, []⟩ Vars.init =
      some (.usage (opts.foldl applyOpt Vars.init)) := by
  obtain ⟨F, hF⟩ : ∃ F, loopFuel (render opts ++ ('-' :: c :: cs) :: more) =
      F + 1 + opts.length := by
    refine ⟨loopFuel (render opts ++ ('-' :: c :: cs) :: more) - 1 - opts.length, ?_⟩
    have := render_measure opts
    simp only [loopFuel, List.map_append, List.sum_append, List.map_cons, List.sum_cons,
      List.length_cons]
    omega
  rw [hF, optionLoop_render_append]
  obtain ⟨c2, a, st2, hg, hs⟩ :=
    getoptChar_unhandled c cs more (opts.foldl applyOpt Vars.init) hc
  simp [optionLoop, getopt, nextOptionElement, hdd, hg, hs]

/-- In every run in which the interface name (if any) fits into the object
`interface`, the calls made are exactly the setup steps up to and including
the first one that fails, and the exit status is 1; when none fails, all
setup steps are made, the log calls follow, and `main` returns 0. -/
theorem mainAfterOptions_steps (env : Env) (argv0 : CString) (v : Vars)
    (hfit : nameFits v = true) :
    (mainAfterOptions env argv0 v).calls =
      (if (setupSteps env v).any (failed env) then takeThrough (failed env) (setupSteps env v)
        else setupSteps env v ++ [.openlog (appname argv0), .syslog, .closelog]) ∧
    (mainAfterOptions env argv0 v).outcome.status =
      some (if (setupSteps env v).any (failed env) then 1 else 0) := by
  unfold mainAfterOptions mainFromBind setupSteps
  simp only
  by_cases hacc : env.access (v.loginpath.getD SHELLPATH) < 0
  · simp [hacc, failed, takeThrough, Outcome.status, perror_msg_and_die]
  by_cases hsock : env.socket < 0
  · simp [hacc, hsock, failed, takeThrough, Outcome.status]
  cases hi : v.interface_name with
  | none =>
    by_cases hb : env.bind < 0
    · simp [hacc, hsock, hb, failed, takeThrough, Outcome.status]
    by_cases hl : env.listen < 0
    · simp [hacc, hsock, hb, hl, failed, takeThrough, Outcome.status]
    by_cases hd : v.daemonize = 0
    · simp [hacc, hsock, hb, hl, hd, failed, takeThrough, Outcome.status]
    by_cases hdm : env.daemon < 0
    · simp [hacc, hsock, hb, hl, hd, hdm, failed, takeThrough, Outcome.status,
        perror_msg_and_die]
    · simp [hacc, hsock, hb, hl, hd, hdm, failed, takeThrough, Outcome.status]
  | some name =>
    have hf : ¬ SIZEOF_IFREQ ≤ strlen name := by
      simp only [nameFits, hi, decide_eq_true_eq] at hfit
      omega
    by_cases hio : env.ioctl name < 0
    · simp [hacc, hsock, hf, hio, failed, takeThrough, Outcome.status]
    by_cases hb : env.bind < 0
    · simp [hacc, hsock, hf, hio, hb, failed, takeThrough, Outcome.status]
    by_cases hl : env.listen < 0
    · simp [hacc, hsock, hf, hio, hb, hl, failed, takeThrough, Outcome.status]
    by_cases hd : v.daemonize = 0
    · simp [hacc, hsock, hf, hio, hb, hl, hd, failed, takeThrough, Outcome.status]
    by_cases hdm : env.daemon < 0
    · simp [hacc, hsock, hf, hio, hb, hl, hd, hdm, failed, takeThrough, Outcome.status,
        perror_msg_and_die]
    · simp [hacc, hsock, hf, hio, hb, hl, hd, hdm, failed, takeThrough, Outcome.status]

/-- Runs of `main` with a failing access, a failing bind and a failing daemon:
each ends with status 1 right after the failing call. -/
theorem main_failing_steps_examples :
    main accessFailEnv "telnetd".toList (words ["-l", "/bin/login"]) =
      some ⟨.exit 1, [.access "/bin/login".toList],
        ⟨23, none, some "/bin/login".toList, 0, 0⟩, none, [], none⟩ ∧
    main bindFailEnv "telnetd".toList (words ["-d"]) =
      some ⟨.ret 1, [.access SHELLPATH, .socket, .setsockopt 3, .bind 3 (0, 23) 0],
        ⟨23, none, some SHELLPATH, 1, 0⟩, some SHELLPATH, [], none⟩ ∧
    main daemonFailEnv "telnetd".toList (words ["-d"]) =
      some ⟨.exit 1,
        [.access SHELLPATH, .socket, .setsockopt 3, .bind 3 (0, 23) 0, .listen 3 1, .daemon],
        ⟨23, none, some SHELLPATH, 1, 0⟩, some SHELLPATH, [], none⟩ := by
  decide

/-- Whenever the interface name (if any) fits and no setup step fails, `main`
returns 0 to its caller, with `maxfd` set to the listening socket. -/
theorem mainAfterOptions_success (env : Env) (argv0 : CString) (v : Vars)
    (hfit : nameFits v = true) (h : (setupSteps env v).any (failed env) = false) :
    (mainAfterOptions env argv0 v).outcome = .ret 0 ∧
    (mainAfterOptions env argv0 v).maxfd = some env.socket := by
  have hacc : ¬ env.access (v.loginpath.getD SHELLPATH) < 0 := by
    intro hx; simp [setupSteps, failed, hx] at h
  have hsock : ¬ env.socket < 0 := by
    intro hx; simp [setupSteps, failed, hx] at h
  have hl : ¬ env.listen < 0 := by
    intro hx; simp [setupSteps, failed, hx] at h
  have hd : ¬ (v.daemonize ≠ 0 ∧ env.daemon < 0) := by
    intro hx; simp [setupSteps, failed, hx.1, hx.2] at h
  unfold mainAfterOptions mainFromBind
  simp only [hacc, hsock, hl, hd, if_false]
  cases hi : v.interface_name with
  | none =>
    have hb : ¬ env.bind < 0 := by
      intro hx; simp [setupSteps, failed, hx, hi] at h
    simp only [hb, if_false]
    simp
  | some name =>
    have hf : ¬ SIZEOF_IFREQ ≤ strlen name := by
      simp only [nameFits, hi, decide_eq_true_eq] at hfit
      omega
    have hio : ¬ env.ioctl name < 0 := by
      intro hx; simp [setupSteps, failed, hx, hi] at h
    have hb : ¬ env.bind < 0 := by
      intro hx; simp [setupSteps, failed, hx, hi] at h
    simp only [hf, hio, hb, if_false]
    simp

/-- A command line with canonical options followed by an element that starts
an unhandled option (`-h`, an unknown character, or an option that lacks its
argument at the end of the line is answered likewise by `getopt`) makes `main`
call `show_usage()` before any setup call: the process exits with status 1. -/
theorem main_usage (env : Env) (argv0 : CString) (opts : List Opt) (c : Char)
    (cs : CString) (more : List CString) (hc : c ∉ handledChars)
    (hdd : '-' :: c :: cs ≠ ['-', '-']) :
    main env argv0 (render opts ++ ('-' :: c :: cs) :: more) =
      some ⟨.exit 1, [], opts.foldl applyOpt Vars.init, none, [], none⟩ := by
  unfold main
  rw [optionLoop_usage env.posixly_correct opts c cs more hc hdd]
  rfl

/-- Once access, socket and the interface lookup have succeeded, with a name
that fits, `bind` is called with `sin_port = htons(portnbr)`. -/
theorem mainAfterOptions_bind_port (env : Env) (argv0 : CString) (v : Vars)
    (hfit : nameFits v = true)
    (hacc : 0 ≤ env.access (v.loginpath.getD SHELLPATH)) (hsock : 0 ≤ env.socket)
    (hio : ∀ name, v.interface_name = some name → 0 ≤ env.ioctl name) :
    ∃ s_addr, Call.bind env.socket (htons v.portnbr) s_addr ∈
      (mainAfterOptions env argv0 v).calls := by
  unfold mainAfterOptions
  simp only [not_lt.mpr hacc, not_lt.mpr hsock, if_false]
  cases hi : v.interface_name with
  | none =>
    refine ⟨INADDR_ANY, ?_⟩
    simp only [mainFromBind]
    repeat' split
    all_goals simp
  | some name =>
    have hf : ¬ SIZEOF_IFREQ ≤ strlen name := by
      simp only [nameFits, hi, decide_eq_true_eq] at hfit
      omega
    refine ⟨env.ifaddr name, ?_⟩
    simp only [hf, not_lt.mpr (hio name hi), if_false, mainFromBind]
    repeat' split
    all_goals simp

/-- With an interface name given, and access and socket successful, the
stores into `interface.ifr_name` are those of an unbounded `strcpy` of the
name: `strlen name + 1` characters. -/
theorem mainAfterOptions_ifr_name (env : Env) (argv0 : CString) (v : Vars) (name : CString)
    (hi : v.interface_name = some name)
    (hacc : 0 ≤ env.access (v.loginpath.getD SHELLPATH)) (hsock : 0 ≤ env.socket) :
    (mainAfterOptions env argv0 v).ifr_name_stores = strcpy name := by
  unfold mainAfterOptions
  simp only [not_lt.mpr hacc, not_lt.mpr hsock, if_false, hi, mainFromBind]
  repeat' split
  all_goals rfl

/-- With an interface name of `SIZEOF_IFREQ` or more characters, and access
and socket successful, the run is undefined from the `strcpy` on, whatever the
ioctl would have answered. -/
theorem mainAfterOptions_undefined (env : Env) (argv0 : CString) (v : Vars) (name : CString)
    (hi : v.interface_name = some name) (hlong : SIZEOF_IFREQ ≤ strlen name)
    (hacc : 0 ≤ env.access (v.loginpath.getD SHELLPATH)) (hsock : 0 ≤ env.socket) :
    (mainAfterOptions env argv0 v).outcome = .undefined ∧
    (SIZEOF_IFREQ ≤ strlen name ∧ (strlen name, NUL) ∈
      (mainAfterOptions env argv0 v).ifr_name_stores) := by
  have hst := mainAfterOptions_ifr_name env argv0 v name hi hacc hsock
  refine ⟨?_, hlong, by rw [hst]; exact (strcpy_spec name).1⟩
  unfold mainAfterOptions
  simp only [not_lt.mpr hacc, not_lt.mpr hsock, if_false, hi, hlong, if_true]

set_option maxRecDepth 20000 in
/-- C3, at a failing input: with `-i` and an interface name of 400 characters,
in an environment where the SIOCGIFADDR ioctl fails, the `strcpy` before the
ioctl stores 401 characters from `interface.ifr_name` on, far past the 40
bytes of the object `interface`: the run is undefined from there on and does
not end with exit status 1 as a failing ioctl should.  With a name that fits
(`eth9`), the same failing ioctl ends the process with status 1 and is the
last call. -/
theorem main_long_interface_name_undefined :
    failed ioctlFailEnv (.ioctl 3 longIfName) = true ∧
    (∃ r, main ioctlFailEnv "telnetd".toList [['-', 'i'], longIfName] = some r ∧
      r.outcome = .undefined ∧ r.outcome.status = none ∧
      r.calls = [.access SHELLPATH, .socket, .setsockopt 3] ∧
      r.ifr_name_stores.length = 401 ∧
      (400, NUL) ∈ r.ifr_name_stores ∧
      ¬ (∀ w ∈ r.ifr_name_stores, w.1 < SIZEOF_IFREQ)) ∧
    (∃ r, main ioctlFailEnv "telnetd".toList (words ["-i", "eth9"]) = some r ∧
      r.outcome.status = some 1 ∧
      r.calls = [.access SHELLPATH, .socket, .setsockopt 3, .ioctl 3 "eth9".toList]) :=
  ⟨by decide, ⟨_, rfl, by decide, by decide, by decide, by decide, by decide, by decide⟩,
    ⟨_, rfl, by decide, by decide⟩⟩

/-- C1, at a failing input: started as `utelnetd` with no arguments in an
environment where every setup call succeeds, `main` makes its setup calls and
then returns 0; it neither accepts a connection nor enters an event loop. -/
theorem main_returns_after_setup :
    main okEnv "utelnetd".toList [] =
      some ⟨.ret 0,
        [.access SHELLPATH, .socket, .setsockopt 3, .bind 3 (0, 23) INADDR_ANY, .listen 3 1,
          .openlog "utelnetd".toList, .syslog, .closelog],
        ⟨23, none, some SHELLPATH, 0, 0⟩, some SHELLPATH, [], some 3⟩ ∧
    (∀ c ∈ [Call.access SHELLPATH, .socket, .setsockopt 3, .bind 3 (0, 23) INADDR_ANY,
        .listen 3 1], failed okEnv c = false) := by
  decide

/-- C7, at a failing input: with `-p 70000` the port variable is 70000, and
the `sin_port` handed to `bind` encodes port 4464, not the port given. -/
theorem main_port_70000 :
    ∃ r, main okEnv "telnetd".toList (words ["-p", "70000"]) = some r ∧
      r.vars.portnbr = 70000 ∧
      r.calls = [.access SHELLPATH, .socket, .setsockopt 3, .bind 3 (17, 112) INADDR_ANY,
        .listen 3 1, .openlog "telnetd".toList, .syslog, .closelog] ∧
      ntohs (17, 112) = 4464 ∧ ntohs (17, 112) ≠ 70000 :=
  ⟨_, rfl, by decide, by decide, by decide, by decide⟩

/-- C10, at a failing input: with `-i` and an interface name of 16 characters
the `strcpy` into `interface.ifr_name` stores 17 characters, the last of them
at offset 16, which is outside the field of IFNAMSIZ = 16 characters; and the
ioctl is called after that. -/
theorem main_ifr_name_overflow :
    ∃ r, main okEnv "telnetd".toList [['-', 'i'], List.replicate 16 'a'] = some r ∧
      r.ifr_name_stores.length = 17 ∧
      (16, NUL) ∈ r.ifr_name_stores ∧
      ¬ (∀ w ∈ r.ifr_name_stores, w.1 < IFNAMSIZ) ∧
      Call.ioctl 3 (List.replicate 16 'a') ∈ r.calls :=
  ⟨_, rfl, by decide, by decide, by decide, by decide⟩

/-! ## The circular buffers of a session -/

theorem readBytes_length (buf : List Nat) (n : Nat) : ∀ idx, (readBytes buf idx n).length = n := by
  induction n with
  | zero => intro idx; rfl
  | succ n ih => intro idx; simp [readBytes, ih]

theorem writeBytes_length (src : List Nat) : ∀ (buf : List Nat) (w : Nat),
    (writeBytes buf w src).length = buf.length := by
  induction src with
  | nil => intro buf w; rfl
  | cons b bs ih => intro buf w; simp [writeBytes, ih]

theorem CircBuf.append_spec (b : CircBuf) (src : List Nat) (h : b.Inv) :
    (b.append src).1.Inv ∧
    (b.append src).1.size = b.size + (b.append src).2 ∧
    (b.append src).2 ≤ src.length ∧
    ((b.append src).2 : Int) = min (src.length : Int) (BUFSIZE - b.size) := by
  obtain ⟨hlen, h0, h1, h2, h3, h4⟩ := h
  simp only [BUFSIZE, Nat.cast_ofNat] at h1 h3 h4
  simp only [CircBuf.Inv, CircBuf.append, BUFSIZE, Nat.cast_ofNat]
  refine ⟨⟨?_, ?_, ?_, h2, h3, ?_⟩, ?_, ?_, ?_⟩
  · rw [writeBytes_length]; exact hlen
  · omega
  · omega
  · rw [h4, Int.emod_add_emod, Int.add_assoc]
  · trivial
  · omega
  · omega

theorem CircBuf.drain_spec (b : CircBuf) (cap : Nat) (sink : Sink) (h : b.Inv) :
    (b.drain cap sink).1.Inv ∧
    (b.drain cap sink).1.size = b.size - (b.drain cap sink).2 ∧
    (b.drain cap sink).2 ≤ cap ∧ ((b.drain cap sink).2 : Int) ≤ b.size := by
  obtain ⟨hlen, h0, h1, h2, h3, h4⟩ := h
  have hk : (sink (b.exposed cap)).val ≤ min cap b.size.toNat := by
    have h := (sink (b.exposed cap)).isLt
    have hlen : (b.exposed cap).length = min cap b.size.toNat := readBytes_length _ _ _
    omega
  simp only [BUFSIZE, Nat.cast_ofNat] at h1 h3 h4
  simp only [CircBuf.Inv, CircBuf.drain, CircBuf.consume, BUFSIZE, Nat.cast_ofNat]
  generalize (sink (b.exposed cap)).val = k at hk ⊢
  refine ⟨⟨hlen, ?_, ?_, ?_, ?_, ?_⟩, ?_, ?_, ?_⟩
  · omega
  · omega
  · omega
  · omega
  · rw [h4, Int.emod_add_emod]
    congr 1
    omega
  · trivial
  · omega
  · omega

theorem writeBytes_untouched (src : List Nat) : ∀ (buf : List Nat) (w j : Nat),
    (∀ i, i < src.length → (w + i) % BUFSIZE ≠ j) → w < BUFSIZE →
    (writeBytes buf w src).getD j 0 = buf.getD j 0 := by
  induction src with
  | nil => intro buf w j _ _; rfl
  | cons b bs ih =>
    intro buf w j h hw
    have h0 := h 0 (by simp)
    simp only [BUFSIZE] at hw h0
    have hwj : w ≠ j := by omega
    rw [writeBytes, ih]
    · simp [List.getD_eq_getElem?_getD, List.getElem?_set, hwj]
    · intro i hi
      have := h (i + 1) (by simp; omega)
      simp only [BUFSIZE] at this ⊢
      omega
    · exact Nat.mod_lt _ (by decide)

theorem writeBytes_written (src : List Nat) : ∀ (buf : List Nat) (w i : Nat),
    buf.length = BUFSIZE → w < BUFSIZE → src.length ≤ BUFSIZE → i < src.length →
    (writeBytes buf w src).getD ((w + i) % BUFSIZE) 0 = src.getD i 0 := by
  induction src with
  | nil => intro buf w i _ _ _ hi; simp at hi
  | cons b bs ih =>
    intro buf w i hlen hw hsrc hi
    simp only [List.length_cons] at hsrc hi
    rw [writeBytes]
    cases i with
    | zero =>
      rw [writeBytes_untouched]
      · simp only [BUFSIZE] at hw hlen
        simp [List.getD_eq_getElem?_getD, Nat.mod_eq_of_lt, BUFSIZE, hw, hlen]
      · intro i hi2
        simp only [BUFSIZE] at hw hsrc ⊢
        omega
      · exact Nat.mod_lt _ (by decide)
    | succ i =>
      have := ih (buf.set w b) ((w + 1) % BUFSIZE) i (by simpa using hlen)
        (Nat.mod_lt _ (by decide)) (by omega) (by omega)
      have e : (w + (i + 1)) % BUFSIZE = ((w + 1) % BUFSIZE + i) % BUFSIZE := by
        simp only [BUFSIZE]; omega
      rw [e, this]
      simp

theorem readBytes_getD (buf : List Nat) (n : Nat) : ∀ (r t : Nat), r < BUFSIZE → t < n →
    (readBytes buf r n).getD t 0 = buf.getD ((r + t) % BUFSIZE) 0 := by
  induction n with
  | zero => intro r t _ ht; omega
  | succ n ih =>
    intro r t hr ht
    rw [readBytes]
    cases t with
    | zero => simp [Nat.mod_eq_of_lt hr]
    | succ t =>
      have := ih ((r + 1) % BUFSIZE) t (Nat.mod_lt _ (by decide)) (by omega)
      have e : (r + (t + 1)) % BUFSIZE = ((r + 1) % BUFSIZE + t) % BUFSIZE := by
        simp only [BUFSIZE]; omega
      rw [e, ← this]
      simp

theorem list_eq_of_getD (l1 l2 : List Nat) (hl : l1.length = l2.length)
    (h : ∀ t, t < l1.length → l1.getD t 0 = l2.getD t 0) : l1 = l2 := by
  apply List.ext_getElem hl
  intro n h1 h2
  have := h n h1
  rwa [List.getD_eq_getElem _ _ h1, List.getD_eq_getElem _ _ h2] at this

/-- The bytes held after an append are the bytes held before, followed by
the bytes that were taken from the source. -/
theorem CircBuf.append_contents (b : CircBuf) (src : List Nat) (h : b.Inv) :
    (b.append src).1.contents = b.contents ++ src.take (b.append src).2 := by
  obtain ⟨hlen, h0, h1, h2, h3, h4⟩ := h
  simp only [BUFSIZE, Nat.cast_ofNat] at h1 h3 h4
  have hn : (b.append src).2 ≤ src.length ∧ ((b.append src).2 : Int) + b.size ≤ 4000 := by
    simp only [CircBuf.append, BUFSIZE, Nat.cast_ofNat]; omega
  generalize hk : (b.append src).2 = n at hn
  have hk2 : min src.length ((BUFSIZE : Int) - b.size).toNat = n := hk
  obtain ⟨r, hr⟩ : ∃ r : Nat, b.rdidx = r := ⟨b.rdidx.toNat, by omega⟩
  obtain ⟨sz, hsz⟩ : ∃ sz : Nat, b.size = sz := ⟨b.size.toNat, by omega⟩
  have hw : b.wridx.toNat = (r + sz) % BUFSIZE := by
    rw [h4, hr, hsz]; simp only [BUFSIZE]; omega
  rw [hsz] at hk2
  have hcont : (b.append src).1.contents =
      readBytes (writeBytes b.buf ((r + sz) % BUFSIZE) (src.take n)) r (sz + n) := by
    simp only [CircBuf.contents, CircBuf.append, hk2, hw, hr, hsz]
    congr 1
  rw [hcont]
  have hb : b.contents = readBytes b.buf r sz := by
    simp only [CircBuf.contents, hr, hsz]; rfl
  rw [hb]
  have htl : (src.take n).length = n := by simp; omega
  apply list_eq_of_getD
  · simp [readBytes_length, htl]
  · intro t ht
    rw [readBytes_length] at ht
    have hrC : r < BUFSIZE := by simp only [BUFSIZE]; omega
    rw [readBytes_getD _ _ _ _ hrC ht]
    by_cases hts : t < sz
    · rw [List.getD_append _ _ _ _ (by rw [readBytes_length]; exact hts),
        readBytes_getD _ _ _ _ hrC hts, writeBytes_untouched]
      · intro i hi
        rw [htl] at hi
        simp only [BUFSIZE]
        omega
      · exact Nat.mod_lt _ (by decide)
    · rw [List.getD_append_right _ _ _ _ (by rw [readBytes_length]; omega), readBytes_length]
      have := writeBytes_written (src.take n) b.buf ((r + sz) % BUFSIZE) (t - sz) hlen
        (Nat.mod_lt _ (by decide)) (by rw [htl]; simp only [BUFSIZE]; omega)
        (by rw [htl]; omega)
      rw [← this]
      congr 1
      simp only [BUFSIZE]
      omega

/-- The bytes a drain exposes are the oldest bytes held, and the bytes held
after it are those before without the bytes the sink consumed. -/
theorem CircBuf.drain_contents (b : CircBuf) (cap : Nat) (sink : Sink) (h : b.Inv) :
    b.exposed cap = b.contents.take cap ∧
    (b.drain cap sink).1.contents = b.contents.drop (b.drain cap sink).2 := by
  obtain ⟨-, h0, h1, h2, h3, h4⟩ := h
  simp only [BUFSIZE, Nat.cast_ofNat] at h1 h3 h4
  obtain ⟨r, hr⟩ : ∃ r : Nat, b.rdidx = r := ⟨b.rdidx.toNat, by omega⟩
  obtain ⟨sz, hsz⟩ : ∃ sz : Nat, b.size = sz := ⟨b.size.toNat, by omega⟩
  have hrC : r < BUFSIZE := by simp only [BUFSIZE]; omega
  have hb : b.contents = readBytes b.buf r sz := by
    simp only [CircBuf.contents, hr, hsz]; rfl
  have he : b.exposed cap = readBytes b.buf r (min cap sz) := by
    simp only [CircBuf.exposed, hr, hsz]; rfl
  have hk : (sink (b.exposed cap)).val ≤ min cap sz := by
    have h := (sink (b.exposed cap)).isLt
    have hl : (b.exposed cap).length = min cap sz := by rw [he, readBytes_length]
    omega
  constructor
  · rw [he, hb]
    apply list_eq_of_getD
    · simp [readBytes_length]
    · intro t ht
      rw [readBytes_length] at ht
      have e2 : (List.take cap (readBytes b.buf r sz)).getD t 0 =
          (readBytes b.buf r sz).getD t 0 := by
        simp [List.getD_eq_getElem?_getD, List.getElem?_take, show t < cap by omega]
      rw [readBytes_getD _ _ _ _ hrC ht, e2, readBytes_getD _ _ _ _ hrC (by omega)]
  · simp only [CircBuf.drain]
    generalize (sink (b.exposed cap)).val = k at hk
    have hc : (b.consume k).contents = readBytes b.buf ((r + k) % BUFSIZE) (sz - k) := by
      simp only [CircBuf.contents, CircBuf.consume, hr, hsz]
      congr 1
      omega
    rw [hc, hb]
    apply list_eq_of_getD
    · simp [readBytes_length]
    · intro t ht
      rw [readBytes_length] at ht
      have e2 : (List.drop k (readBytes b.buf r sz)).getD t 0 =
          (readBytes b.buf r sz).getD (k + t) 0 := by
        simp [List.getD_eq_getElem?_getD, List.getElem?_drop]
      rw [readBytes_getD _ _ _ _ (Nat.mod_lt _ (by decide)) ht, e2,
        readBytes_getD _ _ _ _ hrC (by omega)]
      congr 1
      simp only [BUFSIZE]
      omega

theorem tsession.cb_setCb (ts : tsession) (w : BufId) (b : CircBuf) :
    (ts.setCb w b).cb w = b := by
  cases w <;> rfl

theorem tsession.cb_setCb_ne (ts : tsession) (w w2 : BufId) (b : CircBuf) (h : w2 ≠ w) :
    (ts.setCb w b).cb w2 = ts.cb w2 := by
  cases w <;> cases w2 <;> first | rfl | exact absurd rfl h

theorem CircBuf.step_spec (b : CircBuf) (op : BufOp) (h : b.Inv) :
    (b.step op).1.Inv ∧ (b.step op).1.size = b.size + (b.step op).2.1 - (b.step op).2.2 := by
  cases op with
  | append src =>
    have := CircBuf.append_spec b src h
    exact ⟨this.1, by simp only [CircBuf.step]; omega⟩
  | drain cap sink =>
    have := CircBuf.drain_spec b cap sink h
    exact ⟨this.1, by simp only [CircBuf.step]; omega⟩

theorem make_session_inv (sockfd ptyfd shell_pid : Int) (w : BufId) :
    ((make_session sockfd ptyfd shell_pid).cb w).Inv := by
  cases w <;>
    exact ⟨List.length_replicate _ _, le_refl (0 : Int),
      (by decide : (0 : Int) ≤ ((4000 : Nat) : Int)), le_refl (0 : Int),
      (by decide : (0 : Int) < ((4000 : Nat) : Int)),
      (by decide : (0 : Int) = (0 + 0) % ((4000 : Nat) : Int))⟩

theorem tsession.step_inv (ts : tsession) (op : BufId × BufOp)
    (h : ∀ w, (ts.cb w).Inv) : ∀ w, ((ts.step op).cb w).Inv := by
  intro w
  unfold tsession.step
  by_cases hw : w = op.1
  · subst hw
    rw [tsession.cb_setCb]
    exact (CircBuf.step_spec _ _ (h _)).1
  · rw [tsession.cb_setCb_ne _ _ _ _ hw]
    exact h w

theorem tsession.run_inv (ops : List (BufId × BufOp)) : ∀ (ts : tsession),
    (∀ w, (ts.cb w).Inv) → ∀ w, ((ts.run ops).cb w).Inv := by
  induction ops with
  | nil => intro ts h; exact h
  | cons op ops ih =>
    intro ts h
    exact ih (ts.step op) (tsession.step_inv ts op h)

/-- C5: from the creation of a session on, through every sequence of append
and drain operations on its two circular buffers, each further operation on
either buffer leaves that buffer with a count equal to the count before plus
the bytes appended minus the bytes drained, the count stays within 0 and
BUFSIZE = 4000, and the write index equals (read index + count) mod 4000; the
other buffer is not touched. -/
theorem session_buffer_accounting (sockfd ptyfd shell_pid : Int)
    (ops : List (BufId × BufOp)) (w : BufId) (op : BufOp) :
    let ts := (make_session sockfd ptyfd shell_pid).run ops
    let before := ts.cb w
    let after := (before.step op).1
    let appended := (before.step op).2.1
    let drained := (before.step op).2.2
    (ts.step (w, op)).cb w = after ∧
    after.size = before.size + appended - drained ∧
    0 ≤ after.size ∧ after.size ≤ 4000 ∧
    after.wridx = (after.rdidx + after.size) % 4000 ∧
    (∀ w2, w2 ≠ w → (ts.step (w, op)).cb w2 = ts.cb w2) := by
  intro ts before after appended drained
  have hinv := tsession.run_inv ops (make_session sockfd ptyfd shell_pid)
    (make_session_inv sockfd ptyfd shell_pid) w
  obtain ⟨⟨_, h0, h1, _, _, h4⟩, hacc⟩ := CircBuf.step_spec _ op hinv
  simp only [BUFSIZE, Nat.cast_ofNat] at h1 h4
  refine ⟨tsession.cb_setCb _ _ _, hacc, h0, h1, h4, ?_⟩
  intro w2 hw
  exact tsession.cb_setCb_ne _ _ _ _ hw

theorem session_buffer_accounting_witness :
    BufId.two ≠ BufId.one ∧
    ((((make_session 4 5 100).run sampleOps).cb .one).step (.drain 2 greedySink)).1.size = 1 ∧
    (((make_session 4 5 100).run sampleOps).step (.one, .drain 2 greedySink)).cb .two =
      ((make_session 4 5 100).run sampleOps).cb .two :=
  have h := session_buffer_accounting 4 5 100 sampleOps .one (.drain 2 greedySink)
  ⟨by decide, h.2.1.trans (by decide), h.2.2.2.2.2 .two (by decide)⟩

/-! ## The codec -/

/-- C6: for every option byte X that the engine does not support, the three
bytes IAC WILL X fed to the codec in its DATA state put exactly the reply
IAC DONT X into the client-bound output and nothing into the pty-bound
output, and leave the codec in DATA; for ECHO, the bytes 0xFF 0xFB 0x01 yield
0xFF 0xFE 0x01. -/
theorem codec_refuses_unsupported_will (X : Nat) (h : supported X = false) :
    codecFeed .data [IAC, WILL, X] = (.data, ⟨[], [IAC, DONT, X], []⟩) ∧
    (codecFeed .data [IAC, WILL, X]).2.clientBound = [0xFF, 0xFE, X] ∧
    (codecFeed .data [IAC, WILL, X]).2.ptyBound = [] ∧
    codecFeed .data [0xFF, 0xFB, 0x01] = (.data, ⟨[], [0xFF, 0xFE, 0x01], []⟩) := by
  have hacc : accepted WILL X = false := by
    simp only [supported, Bool.or_eq_false_iff] at h
    simp [accepted, h.1, h.2]
  have hacc2 : accepted 251 X = false := hacc
  have hfeed : codecFeed .data [IAC, WILL, X] = (.data, ⟨[], [IAC, DONT, X], []⟩) := by
    simp [codecFeed, codecStep, hacc2, CodecOut.andThen, CodecOut.none, IAC, WILL, WONT, DO,
      DONT]
  refine ⟨hfeed, ?_, ?_, by decide⟩
  · rw [hfeed]; rfl
  · rw [hfeed]

theorem codec_refuses_unsupported_will_witness :
    supported TELOPT_ECHO = false ∧
    (codecFeed .data [IAC, WILL, TELOPT_ECHO]).2.clientBound = [0xFF, 0xFE, TELOPT_ECHO] ∧
    (codecFeed .data [IAC, WILL, TELOPT_ECHO]).2.ptyBound = [] :=
  ⟨by decide, (codec_refuses_unsupported_will TELOPT_ECHO (by decide)).2.1,
    (codec_refuses_unsupported_will TELOPT_ECHO (by decide)).2.2.1⟩

end Utelnetd
